import Mathlib

/-!
Verification of the core of a Protocol Buffers wire-format codec
(64-bit split arithmetic, varint encoder/decoder, UTF-8 string codec,
decoder instance pool).

JavaScript 32-bit bit patterns are embedded as `Nat` values `< 2^32`;
`x >>> 0` becomes `% 2^32`, `x >>> k` becomes `>>> k` (i.e. division by
`2^k`), `x << k` becomes `(x <<< k) % 2^32`, and the signed intermediates
produced by `|`, `^`, `<<` are represented by their unsigned 32-bit bit
patterns.  Fallible operations return `Except`.
-/

namespace NNA

/-! ### Bit-twiddling helper lemmas -/

/-- XOR with an all-ones mask is complement: for `x < 2^n`,
`x ^^^ (2^n - 1) = (2^n - 1) - x`. -/
theorem xor_allones {n x : Nat} (h : x < 2^n) :
    x ^^^ (2^n - 1) = 2^n - 1 - x := by
  induction n generalizing x with
  | zero => interval_cases x; rfl
  | succ n ih =>
    have hx2 : x / 2 < 2^n := by omega
    have hdiv : (x ^^^ (2^(n+1) - 1)) / 2 = x / 2 ^^^ (2^n - 1) := by
      rw [Nat.xor_div_two]
      congr 1
      omega
    have hmod : (x ^^^ (2^(n+1) - 1)) % 2 = (x + (2^(n+1) - 1)) % 2 :=
      Nat.xor_mod_two_eq
    have := ih hx2
    have hpow : (2:Nat)^(n+1) = 2 * 2^n := by ring
    omega

/-- Disjoint OR is addition: `2^i * a ||| b = 2^i * a + b` for `b < 2^i`. -/
theorem or_disjoint {i b : Nat} (a : Nat) (hb : b < 2^i) :
    2^i * a ||| b = 2^i * a + b :=
  (Nat.mul_add_lt_is_or hb a).symm

/-! ### `lib.ts`: split-64 zigzag transforms

The source operates on a 64-bit value as two 32-bit halves `(bitsLow,
bitsHigh)` and invokes a caller-supplied continuation `convert` on the
transformed pair. -/

/-- Embeds `toZigzag64` (`lib.ts`).  `signFlipMask = bitsHigh >> 31` is the
arithmetic shift: as a 32-bit pattern it is `0` or `0xffffffff`. -/
def toZigzag64 {T : Type} (bitsLow bitsHigh : Nat)
    (convert : Nat → Nat → T) : T :=
  let signFlipMask : Nat := if bitsHigh < 2^31 then 0 else 2^32 - 1
  let bitsHigh' := (((bitsHigh <<< 1) % 2^32) ||| (bitsLow >>> 31)) ^^^ signFlipMask
  let bitsLow' := ((bitsLow <<< 1) % 2^32) ^^^ signFlipMask
  convert bitsLow' bitsHigh'

/-- Embeds `fromZigzag64` (`lib.ts`).  `signFlipMask = -(bitsLow & 1)` is
`0` or `0xffffffff` as a 32-bit pattern. -/
def fromZigzag64 {T : Type} (bitsLow bitsHigh : Nat)
    (convert : Nat → Nat → T) : T :=
  let signFlipMask : Nat := if bitsLow % 2 = 1 then 2^32 - 1 else 0
  let bitsLow' := ((bitsLow >>> 1) ||| ((bitsHigh <<< 31) % 2^32)) ^^^ signFlipMask
  let bitsHigh' := (bitsHigh >>> 1) ^^^ signFlipMask
  convert bitsLow' bitsHigh'

/-- C1.  Zigzag round-trip: decoding the zigzag encoding of any split
64-bit pair returns the original pair, and the eight test-table cases
encode as stated (&lt;original split pair, zigzag split pair&gt;). -/
theorem zigzag_roundtrip :
    (∀ lo hi : Nat, lo < 2^32 → hi < 2^32 →
      toZigzag64 lo hi (fun zlo zhi => fromZigzag64 zlo zhi Prod.mk) = (lo, hi))
    ∧ toZigzag64 0 0 Prod.mk = (0, 0)                                -- 0 ↦ 0
    ∧ toZigzag64 0xffffffff 0xffffffff Prod.mk = (1, 0)              -- -1 ↦ 1
    ∧ toZigzag64 1 0 Prod.mk = (2, 0)                                -- 1 ↦ 2
    ∧ toZigzag64 0xfffffffe 0xffffffff Prod.mk = (3, 0)              -- -2 ↦ 3
    ∧ toZigzag64 0x7fffffff 0 Prod.mk = (0xfffffffe, 0)              -- 2^31-1 ↦ 2^32-2
    ∧ toZigzag64 0x80000000 0xffffffff Prod.mk = (0xffffffff, 0)     -- -2^31 ↦ 2^32-1
    ∧ toZigzag64 0xffffffff 0x7fffffff Prod.mk = (0xfffffffe, 0xffffffff)
    ∧ toZigzag64 0 0x80000000 Prod.mk = (0xffffffff, 0xffffffff) := by
  refine ⟨?_, by decide, by decide, by decide, by decide, by decide, by decide,
    by decide, by decide⟩
  intro lo hi hlo hhi
  unfold toZigzag64 fromZigzag64
  simp only [Nat.shiftLeft_eq, Nat.shiftRight_eq_div_pow]
  by_cases hs : hi < 2^31
  · -- non-negative: both masks are zero
    have hhi2 : (hi * 2^1) % 2^32 = 2^1 * hi := by
      rw [Nat.mod_eq_of_lt (by omega)]; ring
    have hor1 : 2^1 * hi ||| lo / 2^31 = 2^1 * hi + lo / 2^31 :=
      or_disjoint hi (by omega)
    simp only [if_pos hs, hhi2, hor1, Nat.xor_zero]
    have hlo2 : (lo * 2^1) % 2^32 = 2 * (lo % 2^31) := by omega
    have hev : 2 * (lo % 2^31) % 2 = 0 := by omega
    simp only [hlo2, if_neg (by omega : ¬ (2 * (lo % 2^31) % 2 = 1)), Nat.xor_zero]
    have hzlo : 2 * (lo % 2^31) / 2^1 = lo % 2^31 := by omega
    have hzhi : ((2^1 * hi + lo / 2^31) * 2^31) % 2^32 = 2^31 * (lo / 2^31) := by
      omega
    rw [hzlo, hzhi]
    have hor2 : 2^31 * (lo / 2^31) ||| lo % 2^31 = 2^31 * (lo / 2^31) + lo % 2^31 :=
      or_disjoint _ (by omega)
    rw [Nat.lor_comm, hor2]
    simp only [Prod.mk.injEq]
    omega
  · -- negative: both masks are all-ones
    have hm1 : (hi * 2^1) % 2^32 = 2 * hi - 2^32 := by omega
    have heq : 2 * hi - 2^32 = 2^1 * (hi - 2^31) := by omega
    have hor1 : 2^1 * (hi - 2^31) ||| lo / 2^31 = 2^1 * (hi - 2^31) + lo / 2^31 :=
      or_disjoint _ (by omega)
    simp only [if_neg hs, hm1, heq, hor1]
    rw [xor_allones (by omega), xor_allones (by omega)]
    -- new low word is odd, so the decode mask is all-ones as well
    have hodd : (2^32 - 1 - lo * 2^1 % 2^32) % 2 = 1 := by omega
    simp only [if_pos hodd]
    have hzlo : (2^32 - 1 - lo * 2^1 % 2^32) / 2^1 = 2^31 - 1 - lo % 2^31 := by omega
    set zhi := 2^32 - 1 - (2^1 * (hi - 2^31) + lo / 2^31) with hzhi_def
    have hzhi2 : (zhi * 2^31) % 2^32 = 2^31 * (zhi % 2) := by omega
    rw [hzlo, hzhi2]
    have hor2 : 2^31 * (zhi % 2) ||| (2^31 - 1 - lo % 2^31) =
        2^31 * (zhi % 2) + (2^31 - 1 - lo % 2^31) :=
      or_disjoint _ (by omega)
    rw [Nat.lor_comm, hor2]
    rw [xor_allones (by omega), xor_allones (by omega)]
    simp only [Prod.mk.injEq]
    omega

/-- C1 witness: the round-trip theorem applied at the pair `(5, 7)`. -/
theorem zigzag_roundtrip_witness :
    toZigzag64 5 7 (fun zlo zhi => fromZigzag64 zlo zhi Prod.mk) = (5, 7) :=
  zigzag_roundtrip.1 5 7 (by decide) (by decide)

/-! ### Decimal strings

The canonical decimal rendering of a natural number, used to embed the
JavaScript number-to-string conversion `String(n)` / `"" + n` (exact for
the integers below `2^53` the source applies it to). -/

/-- Little-endian decimal digits of `v` (empty for `0`); the first
argument is structural fuel, always called with `fuel = v ≥ v`. -/
def decDigitsAux : Nat → Nat → List Nat
  | 0, _ => []
  | fuel+1, v => if v = 0 then [] else v % 10 :: decDigitsAux fuel (v / 10)

/-- Little-endian decimal digits of `v` (empty for `0`). -/
def decDigitsLE (v : Nat) : List Nat := decDigitsAux v v

/-- The character for a decimal digit. -/
def digitChar (d : Nat) : Char := Char.ofNat (48 + d)

/-- The decimal string of `v`, as a list of characters, most significant
digit first; `"0"` for zero. -/
def decString (v : Nat) : List Char :=
  if v = 0 then ['0'] else (decDigitsLE v).reverse.map digitChar

/-- Exactly `k` little-endian decimal digits of `v` (for `v < 10^k`),
i.e. the digits of `v` padded with trailing zeros. -/
def padDigitsLE : Nat → Nat → List Nat
  | 0, _ => []
  | k+1, v => v % 10 :: padDigitsLE k (v / 10)

theorem decDigitsAux_fuel {fuel₁ fuel₂ v : Nat} (h₁ : v ≤ fuel₁) (h₂ : v ≤ fuel₂) :
    decDigitsAux fuel₁ v = decDigitsAux fuel₂ v := by
  induction fuel₁ generalizing fuel₂ v with
  | zero =>
    have : v = 0 := by omega
    subst this
    cases fuel₂ <;> simp [decDigitsAux]
  | succ f ih =>
    cases fuel₂ with
    | zero =>
      have : v = 0 := by omega
      subst this
      simp [decDigitsAux]
    | succ f₂ =>
      simp only [decDigitsAux]
      by_cases hv : v = 0
      · simp [hv]
      · simp only [if_neg hv]
        have hf : v / 10 ≤ f := by omega
        have hf2 : v / 10 ≤ f₂ := by omega
        exact congrArg _ (ih hf hf2)

/-- Unfolding equation for `decDigitsLE`. -/
theorem decDigitsLE_eq (v : Nat) :
    decDigitsLE v = if v = 0 then [] else v % 10 :: decDigitsLE (v / 10) := by
  unfold decDigitsLE
  by_cases hv : v = 0
  · simp [hv, decDigitsAux]
  · cases hv' : v with
    | zero => omega
    | succ n =>
      simp only [if_neg hv, ← hv', decDigitsAux, if_neg hv]
      subst hv'
      congr 1
      exact decDigitsAux_fuel (by omega) (by omega)

/-- Digits of `c * 10^k + b` are the `k` padded digits of `b` followed by
the digits of `c`, for `b < 10^k` and `c ≠ 0`. -/
theorem decDigitsLE_mul_pow_add {k b c : Nat} (hb : b < 10^k) (hc : c ≠ 0) :
    decDigitsLE (c * 10^k + b) = padDigitsLE k b ++ decDigitsLE c := by
  induction k generalizing b with
  | zero =>
    have : b = 0 := by simpa using hb
    subst this
    simp [padDigitsLE]
  | succ k ih =>
    have hpow : (10:Nat)^(k+1) = 10 * 10^k := by ring
    have hne : c * 10^(k+1) + b ≠ 0 := by
      have : 0 < (10:Nat)^(k+1) := Nat.pos_pow_of_pos _ (by omega)
      intro h
      exact hc (by nlinarith)
    rw [decDigitsLE_eq, if_neg hne]
    have hct : c * 10^(k+1) = 10 * (c * 10^k) := by ring
    have hmod : (c * 10^(k+1) + b) % 10 = b % 10 := by
      rw [hct]
      omega
    have hdiv : (c * 10^(k+1) + b) / 10 = c * 10^k + b / 10 := by
      rw [hct]
      omega
    rw [hmod, hdiv, ih (by omega)]
    simp [padDigitsLE]

/-- Splitting `k + j` padded digits. -/
theorem padDigitsLE_add (j k a b : Nat) (ha : a < 10^j) :
    padDigitsLE (j + k) (b * 10^j + a) = padDigitsLE j a ++ padDigitsLE k b := by
  induction j generalizing a with
  | zero =>
    have : a = 0 := by simpa using ha
    subst this
    simp [padDigitsLE]
  | succ j ih =>
    have hbt : b * 10^(j+1) = 10 * (b * 10^j) := by ring
    have hp : (10:Nat)^(j+1) = 10 * 10^j := by ring
    have hmod : (b * 10^(j+1) + a) % 10 = a % 10 := by rw [hbt]; omega
    have hdiv : (b * 10^(j+1) + a) / 10 = b * 10^j + a / 10 := by rw [hbt]; omega
    have hsucc : j + 1 + k = (j + k) + 1 := by omega
    rw [hsucc]
    simp only [padDigitsLE, hmod, hdiv]
    rw [ih (a / 10) (by omega)]
    simp [List.cons_append]

/-- Padded digits are the plain digits followed by trailing zeros. -/
theorem padDigitsLE_eq_digits_append {k v : Nat} (hv : v < 10^k) :
    padDigitsLE k v = decDigitsLE v ++
      List.replicate (k - (decDigitsLE v).length) 0 := by
  induction k generalizing v with
  | zero =>
    have : v = 0 := by simpa using hv
    subst this
    simp [padDigitsLE, decDigitsLE, decDigitsAux]
  | succ k ih =>
    by_cases hv0 : v = 0
    · subst hv0
      have : ∀ m, padDigitsLE m 0 = List.replicate m 0 := by
        intro m
        induction m with
        | zero => rfl
        | succ m ihm => simp [padDigitsLE, ihm, List.replicate_succ]
      simp [this, decDigitsLE, decDigitsAux]
    · have hpow : (10:Nat)^(k+1) = 10 * 10^k := by ring
      rw [decDigitsLE_eq, if_neg hv0]
      simp only [padDigitsLE]
      rw [ih (by omega)]
      simp [List.length_cons]

/-- Digit count of `v < 10^k` is at most `k`. -/
theorem decDigitsLE_length_le {k v : Nat} (hv : v < 10^k) :
    (decDigitsLE v).length ≤ k := by
  induction k generalizing v with
  | zero =>
    have : v = 0 := by simpa using hv
    subst this
    simp [decDigitsLE, decDigitsAux]
  | succ k ih =>
    rw [decDigitsLE_eq]
    by_cases hv0 : v = 0
    · simp [hv0]
    · have hpow : (10:Nat)^(k+1) = 10 * 10^k := by ring
      simp only [if_neg hv0, List.length_cons]
      have := ih (v := v / 10) (by omega)
      omega

/-! ### `lib.ts`: `joinUnsignedDecimalString` -/

/-- Embeds the inner helper `decimalFrom1e7` of `joinUnsignedDecimalString`:
render one base-10^7 digit, left-padding with zeros (`"0000000".slice(...)`)
when `needLeadingZeros` is truthy. -/
def decimalFrom1e7 (digit1e7 : Nat) (needLeadingZeros : Nat) : List Char :=
  let p := if digit1e7 ≠ 0 then decString digit1e7 else []
  if needLeadingZeros ≠ 0 then List.replicate (7 - p.length) '0' ++ p else p

/-- Embeds `joinUnsignedDecimalString` (`lib.ts`): decimal rendering of the
64-bit value `bitsHigh * 2^32 + bitsLow`.  The fast path uses the host
number-to-string conversion (exact below `2^53`, embedded as `decString`);
the slow path converts to base 10^7 via a 16:24:24 split.  `bitsHigh >> 16`
is an arithmetic shift in the source; its low 16 bits agree with the
logical shift used here. -/
def joinUnsignedDecimalString (bitsLow bitsHigh : Nat) : List Char :=
  if bitsHigh ≤ 0x1fffff then
    decString (0x100000000 * bitsHigh + bitsLow)
  else
    let low := bitsLow &&& 0xffffff
    let mid := ((bitsLow >>> 24) ||| ((bitsHigh <<< 8) % 2^32)) % 2^32 &&& 0xffffff
    let high := (bitsHigh >>> 16) &&& 0xffff
    let digitA := low + mid * 6777216 + high * 6710656
    let digitB := mid + high * 8147497
    let digitC := high * 2
    let digitB2 := if digitA ≥ 10000000 then digitB + digitA / 10000000 else digitB
    let digitA2 := if digitA ≥ 10000000 then digitA % 10000000 else digitA
    let digitC2 := if digitB2 ≥ 10000000 then digitC + digitB2 / 10000000 else digitC
    let digitB3 := if digitB2 ≥ 10000000 then digitB2 % 10000000 else digitB2
    decimalFrom1e7 digitC2 0 ++ decimalFrom1e7 digitB3 digitC2 ++
      decimalFrom1e7 digitA2 1

/-- A padded base-10^7 digit renders as the 7 padded decimal digits. -/
theorem decimalFrom1e7_pad {x z : Nat} (hx : x < 10^7) (hz : z ≠ 0) :
    decimalFrom1e7 x z = (padDigitsLE 7 x).reverse.map digitChar := by
  unfold decimalFrom1e7
  rw [if_pos hz, padDigitsLE_eq_digits_append hx, List.reverse_append,
    List.map_append, List.reverse_replicate, List.map_replicate]
  have hchar : digitChar 0 = '0' := rfl
  rw [hchar]
  by_cases hx0 : x = 0
  · subst hx0
    simp [decDigitsLE, decDigitsAux]
  · rw [if_pos hx0, decString, if_neg hx0]
    congr 2
    simp

/-- Assembling three base-10^7 digits: the concatenation produced by the
slow path is the decimal string of `c * 10^14 + b * 10^7 + a`. -/
theorem decString_base1e7 {a b c : Nat} (ha : a < 10^7) (hb : b < 10^7)
    (hc : c ≠ 0) :
    decimalFrom1e7 c 0 ++ decimalFrom1e7 b c ++ decimalFrom1e7 a 1 =
      decString (c * 10^14 + b * 10^7 + a) := by
  have hB : b * 10^7 + a < 10^14 := by
    have : (10:Nat)^14 = 10^7 * 10^7 := by norm_num
    nlinarith
  have hne : c * 10^14 + (b * 10^7 + a) ≠ 0 := by
    have : 0 < (10:Nat)^14 := by norm_num
    intro h
    exact hc (by nlinarith)
  have hsplit : decDigitsLE (c * 10^14 + (b * 10^7 + a)) =
      padDigitsLE 7 a ++ padDigitsLE 7 b ++ decDigitsLE c := by
    rw [decDigitsLE_mul_pow_add hB hc]
    have h77 : (14:Nat) = 7 + 7 := by norm_num
    rw [h77, padDigitsLE_add 7 7 a b ha]
  have hCfirst : decimalFrom1e7 c 0 = decString c := by
    unfold decimalFrom1e7
    simp [hc]
  have hL : decString c = (decDigitsLE c).reverse.map digitChar := by
    rw [decString, if_neg hc]
  have hR : decString (c * 10^14 + (b * 10^7 + a)) =
      (padDigitsLE 7 a ++ padDigitsLE 7 b ++ decDigitsLE c).reverse.map
        digitChar := by
    rw [decString, if_neg hne, hsplit]
  have hassoc : c * 10^14 + b * 10^7 + a = c * 10^14 + (b * 10^7 + a) := by
    ring
  rw [hCfirst, decimalFrom1e7_pad hb hc, decimalFrom1e7_pad ha (by omega),
    hassoc, hR, hL, List.reverse_append, List.reverse_append,
    List.map_append, List.map_append]
  simp [List.append_assoc]

/-- C3.  `joinUnsignedDecimalString` is the exact decimal rendering of
`bitsHigh * 2^32 + bitsLow`, on both the fast path and the base-10^7
carry path. -/
theorem joinUnsignedDecimalString_correct (lo hi : Nat)
    (hlo : lo < 2^32) (hhi : hi < 2^32) :
    joinUnsignedDecimalString lo hi = decString (hi * 2^32 + lo) := by
  simp only [joinUnsignedDecimalString]
  by_cases hfast : hi ≤ 0x1fffff
  · rw [if_pos hfast]
    congr 1
    ring
  · rw [if_neg hfast]
    have hlow : lo &&& 0xffffff = lo % 2^24 := by
      have h : (0xffffff : Nat) = 2^24 - 1 := by norm_num
      rw [h, Nat.and_pow_two_sub_one_eq_mod]
    have hshl : (hi <<< 8) % 2^32 = (hi % 2^24) * 2^8 := by
      rw [Nat.shiftLeft_eq]
      have h32 : (2:Nat)^32 = 2^24 * 2^8 := by norm_num
      rw [h32, Nat.mul_mod_mul_right]
    have hshr : lo >>> 24 = lo / 2^24 := Nat.shiftRight_eq_div_pow lo 24
    have hmid : ((lo >>> 24) ||| ((hi <<< 8) % 2^32)) % 2^32 &&& 0xffffff =
        lo / 2^24 + (hi % 2^16) * 2^8 := by
      rw [hshr, hshl]
      have heq : (hi % 2^24) * 2^8 = 2^8 * (hi % 2^24) := by ring
      rw [heq, Nat.lor_comm, or_disjoint _ (by omega)]
      have hlt : 2^8 * (hi % 2^24) + lo / 2^24 < 2^32 := by omega
      rw [Nat.mod_eq_of_lt hlt]
      have h : (0xffffff : Nat) = 2^24 - 1 := by norm_num
      rw [h, Nat.and_pow_two_sub_one_eq_mod]
      omega
    have hhigh : (hi >>> 16) &&& 0xffff = hi / 2^16 := by
      rw [Nat.shiftRight_eq_div_pow]
      have h : (0xffff : Nat) = 2^16 - 1 := by norm_num
      rw [h, Nat.and_pow_two_sub_one_eq_mod]
      omega
    rw [hlow, hmid, hhigh]
    -- names for the three 16/24/24-bit pieces and the raw base-10^7 digits
    set lw := lo % 2^24 with hlw
    set md := lo / 2^24 + (hi % 2^16) * 2^8 with hmd
    set hg := hi / 2^16 with hhg
    set dA := lw + md * 6777216 + hg * 6710656 with hdA
    set dB := md + hg * 8147497 with hdB
    set dC := hg * 2 with hdC
    set dB2 := if dA ≥ 10000000 then dB + dA / 10000000 else dB with hdB2
    set dA2 := if dA ≥ 10000000 then dA % 10000000 else dA with hdA2
    set dC2 := if dB2 ≥ 10000000 then dC + dB2 / 10000000 else dC with hdC2
    set dB3 := if dB2 ≥ 10000000 then dB2 % 10000000 else dB2 with hdB3
    have hA2 : dA2 < 10^7 := by
      rw [hdA2]
      split <;> omega
    have hB3 : dB3 < 10^7 := by
      rw [hdB3]
      split <;> omega
    have hstep1 : dA + dB * 10^7 = dA2 + dB2 * 10^7 := by
      rw [hdA2, hdB2]
      split <;> omega
    have hstep2 : dB2 * 10^7 + dC * 10^14 = dB3 * 10^7 + dC2 * 10^14 := by
      rw [hdB3, hdC2]
      split <;> omega
    have hsum : dA + dB * 10^7 + dC * 10^14 = hi * 2^32 + lo := by
      rw [hdA, hdB, hdC, hlw, hmd, hhg]
      omega
    have hval : dC2 * 10^14 + dB3 * 10^7 + dA2 = hi * 2^32 + lo := by omega
    have hC2 : dC2 ≠ 0 := by
      rw [hdC2, hdC, hhg]
      split <;> omega
    rw [decString_base1e7 hA2 hB3 hC2, hval]

/-- C3 witness: the formatting theorem applied at the pair
`(0xffffffff, 0xffffffff)`, i.e. the value `2^64 - 1`. -/
theorem joinUnsignedDecimalString_correct_witness :
    joinUnsignedDecimalString 0xffffffff 0xffffffff =
      decString (0xffffffff * 2^32 + 0xffffffff) :=
  joinUnsignedDecimalString_correct 0xffffffff 0xffffffff (by norm_num)
    (by norm_num)

/-! ### `encoder.ts`: `writeSplitVarint64` -/

/-- Loop of `BinaryEncoder.writeSplitVarint64`: while
`highBits > 0 || lowBits > 127`, push `(lowBits & 0x7f) | 0x80` and shift
the pair right by 7 (`lowBits = (lowBits >>> 7 | highBits << 25) >>> 0`,
`highBits = highBits >>> 7`); finally push `lowBits`.  The first argument
is structural fuel; 10 iterations always suffice for a 64-bit pair. -/
def writeSplitVarint64Aux : Nat → List Nat → Nat → Nat → List Nat
  | 0, buffer, lowBits, _ => buffer ++ [lowBits]
  | fuel+1, buffer, lowBits, highBits =>
    if highBits > 0 ∨ lowBits > 127 then
      writeSplitVarint64Aux fuel (buffer ++ [(lowBits &&& 0x7f) ||| 0x80])
        (((lowBits >>> 7) ||| ((highBits <<< 25) % 2^32)) % 2^32)
        (highBits >>> 7)
    else buffer ++ [lowBits]

/-- Embeds `BinaryEncoder.writeSplitVarint64` (`encoder.ts`), returning
the new buffer.  The source asserts `0 ≤ lowBits, highBits < 2^32`; the
theorems take those as hypotheses. -/
def writeSplitVarint64 (buffer : List Nat) (lowBits highBits : Nat) :
    List Nat :=
  writeSplitVarint64Aux 10 buffer lowBits highBits

/-- The canonical little-endian base-128 varint byte list of `v`
(fuelled; 10 iterations suffice below `128^10 = 2^70`). -/
def encodeVarintAux : Nat → Nat → List Nat
  | 0, v => [v]
  | fuel+1, v =>
    if v < 128 then [v] else (v % 128 + 128) :: encodeVarintAux fuel (v / 128)

/-- The canonical varint byte list of a 64-bit value. -/
def encodeVarint (v : Nat) : List Nat := encodeVarintAux 10 v

/-- The value denoted by a little-endian base-128 byte list: each byte
contributes its low 7 bits. -/
def decodeVarint (l : List Nat) : Nat :=
  l.foldr (fun b acc => b % 128 + 128 * acc) 0

/-- The encoder loop produces exactly the canonical varint bytes of
`highBits * 2^32 + lowBits`. -/
theorem writeSplitVarint64Aux_eq (fuel : Nat) :
    ∀ buffer lowBits highBits, lowBits < 2^32 → highBits < 2^32 →
    highBits * 2^32 + lowBits < 128^fuel →
    writeSplitVarint64Aux fuel buffer lowBits highBits =
      buffer ++ encodeVarintAux fuel (highBits * 2^32 + lowBits) := by
  induction fuel with
  | zero =>
    intro buffer lo hi hlo hhi hv
    have : hi = 0 ∧ lo = 0 := by
      constructor <;> omega
    simp [writeSplitVarint64Aux, encodeVarintAux, this.1, this.2]
  | succ fuel ih =>
    intro buffer lo hi hlo hhi hv
    simp only [writeSplitVarint64Aux, encodeVarintAux]
    by_cases hg : hi > 0 ∨ lo > 127
    · rw [if_pos hg]
      have hbyte : (lo &&& 0x7f) ||| 0x80 = (hi * 2^32 + lo) % 128 + 128 := by
        have h7f : (0x7f : Nat) = 2^7 - 1 := by norm_num
        rw [h7f, Nat.and_pow_two_sub_one_eq_mod]
        have h80 : (0x80 : Nat) = 2^7 * 1 := by norm_num
        rw [h80, Nat.lor_comm, or_disjoint 1 (by omega)]
        omega
      have hlo' : ((lo >>> 7) ||| ((hi <<< 25) % 2^32)) % 2^32 =
          lo / 2^7 + (hi % 2^7) * 2^25 := by
        rw [Nat.shiftRight_eq_div_pow, Nat.shiftLeft_eq]
        have h32 : (2:Nat)^32 = 2^7 * 2^25 := by norm_num
        rw [h32, Nat.mul_mod_mul_right]
        have heq : (hi % 2^7) * 2^25 = 2^25 * (hi % 2^7) := by ring
        rw [heq, Nat.lor_comm, or_disjoint _ (by omega)]
        omega
      have hhi' : hi >>> 7 = hi / 2^7 := Nat.shiftRight_eq_div_pow hi 7
      rw [hbyte, hlo', hhi']
      have hvnew : (hi / 2^7) * 2^32 + (lo / 2^7 + (hi % 2^7) * 2^25) =
          (hi * 2^32 + lo) / 128 := by omega
      have hpow : (128:Nat)^(fuel+1) = 128^fuel * 128 := by ring
      rw [ih (buffer ++ [(hi * 2^32 + lo) % 128 + 128]) _ _ (by omega)
        (by omega) (by rw [hvnew]; omega), hvnew]
      have hv128 : ¬ (hi * 2^32 + lo < 128) := by omega
      rw [if_neg hv128]
      simp
    · rw [if_neg hg]
      push_neg at hg
      have hvis : hi * 2^32 + lo = lo := by omega
      rw [if_pos (by omega), hvis]

/-- Canonical varint bytes decode back to the value. -/
theorem encodeVarintAux_decode (fuel : Nat) :
    ∀ v, v < 128^fuel → decodeVarint (encodeVarintAux fuel v) = v := by
  induction fuel with
  | zero =>
    intro v hv
    have : v = 0 := by simpa using hv
    subst this
    rfl
  | succ fuel ih =>
    intro v hv
    simp only [encodeVarintAux]
    by_cases h : v < 128
    · rw [if_pos h]
      simp [decodeVarint]
      omega
    · rw [if_neg h]
      have hpow : (128:Nat)^(fuel+1) = 128^fuel * 128 := by ring
      have := ih (v / 128) (by omega)
      simp only [decodeVarint, List.foldr] at this ⊢
      rw [this]
      omega

/-- Shape of the canonical varint bytes: a (possibly empty) body of bytes
with the continuation bit set followed by one final byte with the
continuation bit clear. -/
theorem encodeVarintAux_shape (fuel : Nat) :
    ∀ v, v < 128^fuel →
    ∃ body last, encodeVarintAux fuel v = body ++ [last] ∧ last < 128 ∧
      ∀ b ∈ body, 128 ≤ b ∧ b < 256 := by
  induction fuel with
  | zero =>
    intro v hv
    have : v = 0 := by simpa using hv
    subst this
    exact ⟨[], 0, rfl, by omega, by simp⟩
  | succ fuel ih =>
    intro v hv
    simp only [encodeVarintAux]
    by_cases h : v < 128
    · exact ⟨[], v, by simp [h], h, by simp⟩
    · rw [if_neg h]
      have hpow : (128:Nat)^(fuel+1) = 128^fuel * 128 := by ring
      obtain ⟨body, last, heq, hlast, hbody⟩ := ih (v / 128) (by omega)
      refine ⟨(v % 128 + 128) :: body, last, by simp [heq], hlast, ?_⟩
      intro b hb
      rcases List.mem_cons.mp hb with h1 | h2
      · omega
      · exact hbody b h2

/-- Length of the canonical varint bytes is at most `max fuel 1`. -/
theorem encodeVarintAux_length (fuel : Nat) :
    ∀ v, v < 128^fuel → (encodeVarintAux fuel v).length ≤ max fuel 1 := by
  induction fuel with
  | zero =>
    intro v hv
    simp [encodeVarintAux]
  | succ fuel ih =>
    intro v hv
    simp only [encodeVarintAux]
    by_cases h : v < 128
    · rw [if_pos h]
      simp only [List.length_singleton]
      omega
    · rw [if_neg h]
      have hpow : (128:Nat)^(fuel+1) = 128^fuel * 128 := by ring
      have hf : fuel ≠ 0 := by
        intro h0
        subst h0
        simp at hv
        omega
      have := ih (v / 128) (by omega)
      simp only [List.length_cons]
      omega

/-- Any byte list decodes to a value below `128 ^ length`. -/
theorem decodeVarint_lt (l : List Nat) : decodeVarint l < 128^l.length := by
  induction l with
  | nil => simp [decodeVarint]
  | cons b t ih =>
    simp only [decodeVarint, List.foldr, List.length_cons] at ih ⊢
    have hpow : (128:Nat)^(t.length+1) = 128^t.length * 128 := by ring
    omega

/-- The canonical varint bytes are minimum-length among all nonempty byte
lists decoding to the same value. -/
theorem encodeVarintAux_minimal (fuel : Nat) :
    ∀ v l, v < 128^fuel → l ≠ [] → decodeVarint l = v →
    (encodeVarintAux fuel v).length ≤ l.length := by
  induction fuel with
  | zero =>
    intro v l hv hl hdec
    have hlen : 1 ≤ l.length := by
      cases l with
      | nil => exact absurd rfl hl
      | cons b t => simp
    simpa [encodeVarintAux] using hlen
  | succ fuel ih =>
    intro v l hv hl hdec
    simp only [encodeVarintAux]
    by_cases h : v < 128
    · have hlen : 1 ≤ l.length := by
        cases l with
        | nil => exact absurd rfl hl
        | cons b t => simp
      simpa [h] using hlen
    · rw [if_neg h]
      cases l with
      | nil => exact absurd rfl hl
      | cons b t =>
        simp only [decodeVarint, List.foldr] at hdec
        have htv : decodeVarint t = v / 128 := by
          simp only [decodeVarint]
          omega
        have htne : t ≠ [] := by
          intro h0
          subst h0
          simp [decodeVarint] at htv
          omega
        have hpow : (128:Nat)^(fuel+1) = 128^fuel * 128 := by ring
        have := ih (v / 128) t (by omega) htne htv
        simp only [List.length_cons]
        omega

/-- C2.  `writeSplitVarint64` appends the minimum-length little-endian
base-128 varint encoding (1 to 10 bytes) of `highBits * 2^32 + lowBits`:
every appended byte but the last has its continuation bit set, the final
byte has it clear, the bytes decode back to the value, and no shorter
nonempty byte list decodes to the value. -/
theorem writeSplitVarint64_canonical (buffer : List Nat) (lowBits highBits : Nat)
    (hlo : lowBits < 2^32) (hhi : highBits < 2^32) :
    ∃ enc, writeSplitVarint64 buffer lowBits highBits = buffer ++ enc ∧
      decodeVarint enc = highBits * 2^32 + lowBits ∧
      1 ≤ enc.length ∧ enc.length ≤ 10 ∧
      (∃ body last, enc = body ++ [last] ∧ last < 128 ∧
        ∀ b ∈ body, 128 ≤ b ∧ b < 256) ∧
      (∀ l, l ≠ [] → decodeVarint l = highBits * 2^32 + lowBits →
        enc.length ≤ l.length) := by
  have hv : highBits * 2^32 + lowBits < 128^10 := by
    have : (128:Nat)^10 = 2^70 := by norm_num
    rw [this]
    have h32 : (2:Nat)^70 = 2^32 * 2^38 := by norm_num
    nlinarith
  refine ⟨encodeVarint (highBits * 2^32 + lowBits),
    writeSplitVarint64Aux_eq 10 buffer lowBits highBits hlo hhi hv,
    encodeVarintAux_decode 10 _ hv, ?_, ?_,
    encodeVarintAux_shape 10 _ hv, fun l hl hdec =>
      encodeVarintAux_minimal 10 _ l hv hl hdec⟩
  · obtain ⟨body, last, heq, -, -⟩ := encodeVarintAux_shape 10 _ hv
    rw [encodeVarint, heq]
    simp
  · have := encodeVarintAux_length 10 _ hv
    simpa [encodeVarint] using this

/-- C2 witness: the canonicality theorem applied at
`buffer = []`, `lowBits = 300`, `highBits = 0` (wire bytes `[0xac, 0x02]`). -/
theorem writeSplitVarint64_canonical_witness :
    ∃ enc, writeSplitVarint64 [] 300 0 = [] ++ enc ∧
      decodeVarint enc = 0 * 2^32 + 300 ∧
      1 ≤ enc.length ∧ enc.length ≤ 10 ∧
      (∃ body last, enc = body ++ [last] ∧ last < 128 ∧
        ∀ b ∈ body, 128 ≤ b ∧ b < 256) ∧
      (∀ l, l ≠ [] → decodeVarint l = 0 * 2^32 + 300 →
        enc.length ≤ l.length) :=
  writeSplitVarint64_canonical [] 300 0 (by norm_num) (by norm_num)

/-! ### `encoder.ts`: `writeString`

The input string is a list of UTF-16 code units (`charCodeAt` values);
the buffer is a list of bytes.  The source's `for` loop with its manual
`i++` on a consumed low surrogate becomes structural recursion on the
code-unit list. -/

/-- Loop of `BinaryEncoder.writeString`: UTF-8-encode each code unit,
merging a high surrogate followed by a low surrogate into one 4-byte
sequence.  When a high surrogate is followed by a unit that is not a low
surrogate, the source pushes nothing for it (there is no inner `else`);
when it is the last unit, the lookahead `i + 1 < value.length` fails and
the ordinary 3-byte branch runs — the one-unit case below is the source's
loop body with that lookahead specialised to `false`. -/
def writeStringAux : List Nat → List Nat → List Nat
  | buffer, [] => buffer
  | buffer, [c] =>
    if c < 128 then buffer ++ [c]
    else if c < 2048 then buffer ++ [(c >>> 6) ||| 192, (c &&& 63) ||| 128]
    else if c < 65536 then
      buffer ++ [(c >>> 12) ||| 224, ((c >>> 6) &&& 63) ||| 128, (c &&& 63) ||| 128]
    else buffer
  | buffer, c :: second :: rest2 =>
    if c < 128 then writeStringAux (buffer ++ [c]) (second :: rest2)
    else if c < 2048 then
      writeStringAux (buffer ++ [(c >>> 6) ||| 192, (c &&& 63) ||| 128])
        (second :: rest2)
    else if c < 65536 then
      if 0xd800 ≤ c ∧ c ≤ 0xdbff then
        if 0xdc00 ≤ second ∧ second ≤ 0xdfff then
          -- c = (c - 0xd800) * 0x400 + second - 0xdc00 + 0x10000; i++
          writeStringAux (buffer ++
            [((((c - 0xd800) * 0x400 + second - 0xdc00 + 0x10000) >>> 18) ||| 240),
             (((((c - 0xd800) * 0x400 + second - 0xdc00 + 0x10000) >>> 12) &&& 63) ||| 128),
             (((((c - 0xd800) * 0x400 + second - 0xdc00 + 0x10000) >>> 6) &&& 63) ||| 128),
             ((((c - 0xd800) * 0x400 + second - 0xdc00 + 0x10000) &&& 63) ||| 128)]) rest2
        else writeStringAux buffer (second :: rest2)
      else
        writeStringAux (buffer ++
          [(c >>> 12) ||| 224, ((c >>> 6) &&& 63) ||| 128, (c &&& 63) ||| 128])
          (second :: rest2)
    else writeStringAux buffer (second :: rest2)

/-- Embeds `BinaryEncoder.writeString` (`encoder.ts`): the new buffer and
the returned byte count `this.buffer.length - oldLength`. -/
def writeString (buffer : List Nat) (value : List Nat) : List Nat × Nat :=
  let newBuffer := writeStringAux buffer value
  (newBuffer, newBuffer.length - buffer.length)

/-- `writeString` only appends: the loop commutes with a buffer prefix. -/
theorem writeStringAux_append :
    ∀ (value buffer : List Nat),
    writeStringAux buffer value = buffer ++ writeStringAux [] value := by
  have H : ∀ n value buffer, List.length value ≤ n →
      writeStringAux buffer value = buffer ++ writeStringAux [] value := by
    intro n
    induction n with
    | zero =>
      intro value buffer hlen
      have : value = [] := by
        cases value with
        | nil => rfl
        | cons c rest => simp at hlen
      subst this
      simp [writeStringAux]
    | succ n ih =>
      intro value buffer hlen
      match value with
      | [] => simp [writeStringAux]
      | [c] =>
        simp only [writeStringAux]
        split_ifs <;> simp
      | c :: second :: rest2 =>
        have htail : (second :: rest2).length ≤ n := by
          simp at hlen ⊢
          omega
        have hrest2 : rest2.length ≤ n := by
          simp at hlen ⊢
          omega
        simp only [writeStringAux]
        split_ifs
        · conv_lhs => rw [ih _ _ htail]
          try conv_rhs => rw [ih _ _ htail]
          try simp
        · conv_lhs => rw [ih _ _ htail]
          try conv_rhs => rw [ih _ _ htail]
          try simp
        · conv_lhs => rw [ih _ _ hrest2]
          try conv_rhs => rw [ih _ _ hrest2]
          try simp
        · conv_lhs => rw [ih _ _ htail]
        · conv_lhs => rw [ih _ _ htail]
          try conv_rhs => rw [ih _ _ htail]
          try simp
        · conv_lhs => rw [ih _ _ htail]
  exact fun value buffer => H value.length value buffer (le_refl _)

/-- C6 (amended).  Surrogate handling of `writeString`: (a) the loop only
appends to the buffer; (b) the returned number is the count of appended
bytes; (c) a high surrogate followed by a low surrogate is encoded with it
as one 4-byte sequence; (d) a high surrogate followed by a unit that is
not a low surrogate contributes no bytes; (e) a high surrogate that is the
*final* code unit is encoded as a 3-byte sequence. -/
theorem writeString_surrogates :
    (∀ buffer value : List Nat,
      writeStringAux buffer value = buffer ++ writeStringAux [] value) ∧
    (∀ buffer value : List Nat,
      (writeString buffer value).2 = (writeStringAux [] value).length) ∧
    (∀ (c1 c2 : Nat) (rest buffer : List Nat),
      0xd800 ≤ c1 → c1 ≤ 0xdbff → 0xdc00 ≤ c2 → c2 ≤ 0xdfff →
      writeStringAux buffer (c1 :: c2 :: rest) =
        writeStringAux (buffer ++
          [240 + ((c1 - 0xd800) * 1024 + (c2 - 0xdc00) + 65536) / 2^18,
           128 + ((c1 - 0xd800) * 1024 + (c2 - 0xdc00) + 65536) / 2^12 % 64,
           128 + ((c1 - 0xd800) * 1024 + (c2 - 0xdc00) + 65536) / 2^6 % 64,
           128 + ((c1 - 0xd800) * 1024 + (c2 - 0xdc00) + 65536) % 64]) rest) ∧
    (∀ (c1 c2 : Nat) (rest buffer : List Nat),
      0xd800 ≤ c1 → c1 ≤ 0xdbff → (c2 < 0xdc00 ∨ 0xdfff < c2) →
      writeStringAux buffer (c1 :: c2 :: rest) =
        writeStringAux buffer (c2 :: rest)) ∧
    (∀ (c1 : Nat) (buffer : List Nat), 0xd800 ≤ c1 → c1 ≤ 0xdbff →
      writeStringAux buffer [c1] =
        buffer ++ [224 + c1 / 2^12, 128 + c1 / 2^6 % 64, 128 + c1 % 64]) := by
  have hand63 : ∀ x : Nat, x &&& 63 = x % 64 := by
    intro x
    have h : (63 : Nat) = 2^6 - 1 := by norm_num
    rw [h, Nat.and_pow_two_sub_one_eq_mod]
  have hor128 : ∀ x : Nat, x < 64 → x ||| 128 = 128 + x := by
    intro x hx
    have h : (128 : Nat) = 2^7 * 1 := by norm_num
    rw [h, Nat.lor_comm, or_disjoint 1 (by omega)]
  refine ⟨fun buffer value => writeStringAux_append value buffer, ?_, ?_, ?_, ?_⟩
  · intro buffer value
    simp only [writeString]
    rw [writeStringAux_append value buffer]
    simp
  · intro c1 c2 rest buffer h1 h2 h3 h4
    have hcp : (c1 - 0xd800) * 0x400 + c2 - 0xdc00 + 0x10000 =
        (c1 - 0xd800) * 1024 + (c2 - 0xdc00) + 65536 := by omega
    simp only [writeStringAux]
    rw [if_neg (by omega), if_neg (by omega), if_pos (by omega),
      if_pos (⟨h1, h2⟩ : 0xd800 ≤ c1 ∧ c1 ≤ 0xdbff),
      if_pos (⟨h3, h4⟩ : 0xdc00 ≤ c2 ∧ c2 ≤ 0xdfff), hcp]
    set cp := (c1 - 0xd800) * 1024 + (c2 - 0xdc00) + 65536 with hcpdef
    have hcplt : cp < 0x110000 := by omega
    have hb1 : (cp >>> 18) ||| 240 = 240 + cp / 2^18 := by
      rw [Nat.shiftRight_eq_div_pow]
      have h240 : (240 : Nat) = 2^4 * 15 := by norm_num
      rw [h240, Nat.lor_comm, or_disjoint 15 (by omega)]
    have hb2 : ((cp >>> 12) &&& 63) ||| 128 = 128 + cp / 2^12 % 64 := by
      rw [Nat.shiftRight_eq_div_pow, hand63, hor128 _ (by omega)]
    have hb3 : ((cp >>> 6) &&& 63) ||| 128 = 128 + cp / 2^6 % 64 := by
      rw [Nat.shiftRight_eq_div_pow, hand63, hor128 _ (by omega)]
    have hb4 : (cp &&& 63) ||| 128 = 128 + cp % 64 := by
      rw [hand63, hor128 _ (by omega)]
    rw [hb1, hb2, hb3, hb4]
  · intro c1 c2 rest buffer h1 h2 h3
    simp only [writeStringAux]
    rw [if_neg (by omega), if_neg (by omega), if_pos (by omega),
      if_pos (⟨h1, h2⟩ : 0xd800 ≤ c1 ∧ c1 ≤ 0xdbff),
      if_neg (by omega : ¬ (0xdc00 ≤ c2 ∧ c2 ≤ 0xdfff))]
  · intro c1 buffer h1 h2
    simp only [writeStringAux]
    rw [if_neg (by omega), if_neg (by omega), if_pos (by omega)]
    have hb1 : (c1 >>> 12) ||| 224 = 224 + c1 / 2^12 := by
      rw [Nat.shiftRight_eq_div_pow]
      have h224 : (224 : Nat) = 2^5 * 7 := by norm_num
      rw [h224, Nat.lor_comm, or_disjoint 7 (by omega)]
    have hb2 : ((c1 >>> 6) &&& 63) ||| 128 = 128 + c1 / 2^6 % 64 := by
      rw [Nat.shiftRight_eq_div_pow, hand63, hor128 _ (by omega)]
    have hb3 : (c1 &&& 63) ||| 128 = 128 + c1 % 64 := by
      rw [hand63, hor128 _ (by omega)]
    rw [hb1, hb2, hb3]

/-- C6 witness: the amended theorem's final-unit clause applied to the
lone high surrogate `0xd800`: it is encoded as the 3 bytes
`[0xed, 0xa0, 0x80]`. -/
theorem writeString_surrogates_witness :
    writeStringAux [] [0xd800] =
      [] ++ [224 + 0xd800 / 2^12, 128 + 0xd800 / 2^6 % 64, 128 + 0xd800 % 64] :=
  writeString_surrogates.2.2.2.2 0xd800 [] (by norm_num) (by norm_num)

/-- C6 counterexample: the claim says an unpaired high surrogate emits
*nothing*, but a high surrogate in final position emits three bytes: the
returned byte count of `writeString` on the one-unit string `[0xd800]` is
`3`, not `0`, and the buffer receives `[0xed, 0xa0, 0x80]`. -/
theorem writeString_trailing_surrogate_emits :
    writeString [] [0xd800] = ([0xed, 0xa0, 0x80], 3) ∧ (3 : Nat) ≠ 0 := by
  constructor
  · rfl
  · omega

/-! ### `UInt64` (64-bit arithmetic support class)

The class stores a 64-bit value as 32-bit halves `lo`, `hi`.  Every
constructor call in the source normalises both halves with `>>> 0`,
embedded as `% 2^32`; `sub` computes on possibly negative JavaScript
numbers, embedded as `Int` with the final `>>> 0` as `Int.emod`/`toNat`.
Only the methods the division claim needs are embedded. -/

structure UInt64 where
  lo : Nat
  hi : Nat
deriving DecidableEq

namespace UInt64

/-- The 64-bit value represented by the two halves. -/
def val (x : UInt64) : Nat := x.hi * 2^32 + x.lo

/-- Both halves in range (maintained by every constructor call). -/
def wf (x : UInt64) : Prop := x.lo < 2^32 ∧ x.hi < 2^32

/-- `cmp`: three-way comparison (`-1`, `0`, `1`). -/
def cmp (a other : UInt64) : Int :=
  if a.hi < other.hi ∨ (a.hi = other.hi ∧ a.lo < other.lo) then -1
  else if a.hi = other.hi ∧ a.lo = other.lo then 0
  else 1

/-- `rightShift`: logical shift right by one. -/
def rightShift (x : UInt64) : UInt64 :=
  ⟨((x.lo >>> 1) ||| ((x.hi &&& 1) <<< 31)) % 2^32, (x.hi >>> 1) % 2^32⟩

/-- `leftShift`: shift left by one (top bit of `lo` carried into `hi`). -/
def leftShift (x : UInt64) : UInt64 :=
  ⟨((x.lo <<< 1) % 2^32) % 2^32,
   (((x.hi <<< 1) % 2^32) ||| (x.lo >>> 31)) % 2^32⟩

/-- `msb`: is the top bit set (`!!(hi & 0x80000000)`). -/
def msb (x : UInt64) : Bool := decide ((x.hi &&& 0x80000000) ≠ 0)

/-- `zero`: is the value zero. -/
def zero (x : UInt64) : Bool := x.lo == 0 && x.hi == 0

/-- `add`: 64-bit addition from 32-bit halves with explicit carry. -/
def add (a other : UInt64) : UInt64 :=
  ⟨((a.lo + other.lo) % 2^32) % 2^32,
   ((a.hi + other.hi) % 2^32 +
     (if a.lo + other.lo ≥ 0x100000000 then 1 else 0)) % 2^32⟩

/-- `sub`: 64-bit subtraction from 32-bit halves with explicit borrow. -/
def sub (a other : UInt64) : UInt64 :=
  ⟨((((a.lo : Int) - other.lo) % 2^32) % 2^32).toNat,
   (((((a.hi : Int) - other.hi) % 2^32) -
      (if (a.lo : Int) - other.lo < 0 then 1 else 0)) % 2^32).toNat⟩

/-- Alignment loop of `div`: left-shift divisor and unit until the high
bit of the divisor is set.  Structural fuel; 64 iterations always
suffice for a nonzero divisor. -/
def alignLoop : Nat → UInt64 → UInt64 → UInt64 × UInt64
  | 0, divisor, unit => (divisor, unit)
  | fuel+1, divisor, unit =>
    if ¬ divisor.msb then alignLoop fuel divisor.leftShift unit.leftShift
    else (divisor, unit)

/-- Main loop of `div`: radix-2 long division, one bit per iteration,
until the unit reaches zero.  Structural fuel; 65 iterations always
suffice. -/
def divLoop : Nat → UInt64 → UInt64 → UInt64 → UInt64 → UInt64 × UInt64
  | 0, quotient, remainder, _, _ => (quotient, remainder)
  | fuel+1, quotient, remainder, divisor, unit =>
    if ¬ unit.zero then
      let qr := if divisor.cmp remainder ≤ 0
        then (quotient.add unit, remainder.sub divisor)
        else (quotient, remainder)
      divLoop fuel qr.1 qr.2 divisor.rightShift unit.rightShift
    else (quotient, remainder)

/-- Embeds `UInt64.div` (`_divisor` is a 32-bit number): returns
`[quotient, remainder]`, or the empty sentinel when dividing by zero. -/
def div (x : UInt64) (divisor : Nat) : List UInt64 :=
  if divisor = 0 then []
  else
    let p := alignLoop 64 ⟨divisor, 0⟩ ⟨1, 0⟩
    let qr := divLoop 65 ⟨0, 0⟩ ⟨x.lo, x.hi⟩ p.1 p.2
    [qr.1, qr.2]

theorem wf_leftShift (x : UInt64) : wf x.leftShift := by
  unfold wf leftShift
  exact ⟨Nat.mod_lt _ (by norm_num), Nat.mod_lt _ (by norm_num)⟩

theorem wf_rightShift (x : UInt64) : wf x.rightShift := by
  unfold wf rightShift
  exact ⟨Nat.mod_lt _ (by norm_num), Nat.mod_lt _ (by norm_num)⟩

theorem wf_add (a b : UInt64) : wf (a.add b) := by
  unfold wf add
  exact ⟨Nat.mod_lt _ (by norm_num), Nat.mod_lt _ (by norm_num)⟩

theorem wf_sub (a b : UInt64) : wf (a.sub b) := by
  unfold wf sub
  constructor <;>
  · simp only []
    omega

theorem val_add {a b : UInt64} (ha : wf a) (hb : wf b)
    (hlt : val a + val b < 2^64) : val (a.add b) = val a + val b := by
  unfold wf val at *
  unfold add
  simp only []
  split <;> omega

theorem val_sub {a b : UInt64} (ha : wf a) (hb : wf b)
    (hle : val b ≤ val a) : val (a.sub b) = val a - val b := by
  unfold wf val at *
  unfold sub
  simp only []
  split <;> omega

theorem cmp_le_iff {a b : UInt64} (ha : wf a) (hb : wf b) :
    (a.cmp b ≤ 0 ↔ val a ≤ val b) := by
  unfold wf val at *
  unfold cmp
  split_ifs with h1 h2 <;> constructor <;> intro h <;> omega

theorem msb_iff {x : UInt64} (h : wf x) : x.msb = true ↔ 2^63 ≤ val x := by
  unfold wf val at *
  unfold msb
  have h31 : (0x80000000 : Nat) = 2^31 := by norm_num
  rw [h31, Nat.and_two_pow, Nat.testBit_to_div_mod, decide_eq_true_iff]
  by_cases hb : x.hi / 2^31 % 2 = 1 <;> simp [hb] <;> omega

theorem zero_iff {x : UInt64} (h : wf x) : x.zero = true ↔ val x = 0 := by
  unfold wf val at *
  unfold zero
  rw [Bool.and_eq_true, beq_iff_eq, beq_iff_eq]
  omega

theorem val_leftShift {x : UInt64} (h : wf x) (hlt : val x < 2^63) :
    val x.leftShift = 2 * val x := by
  unfold wf val at *
  unfold leftShift
  simp only [Nat.shiftLeft_eq, Nat.shiftRight_eq_div_pow]
  have hhi : (x.hi * 2^1) % 2^32 = 2^1 * (x.hi % 2^31) := by omega
  rw [hhi, or_disjoint _ (by omega : x.lo / 2^31 < 2^1)]
  omega

theorem val_rightShift {x : UInt64} (h : wf x) :
    val x.rightShift = val x / 2 := by
  unfold wf val at *
  unfold rightShift
  simp only [Nat.shiftLeft_eq, Nat.shiftRight_eq_div_pow, Nat.and_one_is_mod]
  have heq : x.hi % 2 * 2^31 = 2^31 * (x.hi % 2) := by ring
  rw [heq, Nat.lor_comm, or_disjoint _ (by omega : x.lo / 2^1 < 2^31)]
  omega

/-- The alignment loop reaches a divisor with the top bit set, keeping
`divisor = d * unit` with `unit` a power of two. -/
theorem alignLoop_spec (fuel : Nat) :
    ∀ (j d : Nat) (divisor unit : UInt64), 1 ≤ d →
    wf divisor → wf unit →
    val divisor = d * 2^j → val unit = 2^j →
    2^63 ≤ d * 2^j * 2^fuel → d * 2^j < 2^64 →
    ∃ m, val (alignLoop fuel divisor unit).1 = d * 2^m ∧
      val (alignLoop fuel divisor unit).2 = 2^m ∧
      2^63 ≤ d * 2^m ∧ d * 2^m < 2^64 ∧
      wf (alignLoop fuel divisor unit).1 ∧
      wf (alignLoop fuel divisor unit).2 := by
  induction fuel with
  | zero =>
    intro j d divisor unit hd hwd hwu hvd hvu hfuel hlt
    exact ⟨j, by simpa [alignLoop] using hvd, by simpa [alignLoop] using hvu,
      by simpa using hfuel, hlt, by simpa [alignLoop] using hwd,
      by simpa [alignLoop] using hwu⟩
  | succ fuel ih =>
    intro j d divisor unit hd hwd hwu hvd hvu hfuel hlt
    simp only [alignLoop]
    by_cases hm : divisor.msb
    · rw [if_neg (by simpa using hm)]
      have h63 := (msb_iff hwd).mp hm
      exact ⟨j, hvd, hvu, by omega, hlt, hwd, hwu⟩
    · rw [if_pos (by simpa using hm)]
      have hlt63 : val divisor < 2^63 := by
        rcases Nat.lt_or_ge (val divisor) (2^63) with h | h
        · exact h
        · exact absurd ((msb_iff hwd).mpr h) hm
      have hu63 : val unit < 2^63 := by
        have : (2:Nat)^j ≤ d * 2^j := Nat.le_mul_of_pos_left _ (by omega)
        omega
      have hdl : val divisor.leftShift = d * 2^(j+1) := by
        rw [val_leftShift hwd hlt63, hvd]
        ring
      have hul : val unit.leftShift = 2^(j+1) := by
        rw [val_leftShift hwu (by omega), hvu]
        ring
      have hfuel' : 2^63 ≤ d * 2^(j+1) * 2^fuel := by
        have : d * 2^(j+1) * 2^fuel = d * 2^j * 2^(fuel+1) := by ring
        rw [this]
        exact hfuel
      have hlt' : d * 2^(j+1) < 2^64 := by
        have : d * 2^(j+1) = 2 * (d * 2^j) := by ring
        omega
      exact ih (j+1) d divisor.leftShift unit.leftShift hd
        (wf_leftShift divisor) (wf_leftShift unit) hdl hul hfuel' hlt'

/-- The division loop keeps `quotient * d + remainder` constant and drives
the remainder below `d`. -/
theorem divLoop_spec :
    ∀ (j fuel : Nat), j + 2 ≤ fuel → ∀ (d X : Nat) (q r divisor unit : UInt64),
    wf q → wf r → wf divisor → wf unit → 1 ≤ d →
    val divisor = d * 2^j → val unit = 2^j →
    val r < 2 * val divisor →
    val q * d + val r = X → X < 2^64 →
    val (divLoop fuel q r divisor unit).1 * d +
      val (divLoop fuel q r divisor unit).2 = X ∧
    val (divLoop fuel q r divisor unit).2 < d := by
  intro j
  induction j with
  | zero =>
    intro fuel hfuel d X q r divisor unit hwq hwr hwd hwu hd hvd hvu hr hinv hX
    obtain ⟨f, rfl⟩ : ∃ f, fuel = f + 1 := ⟨fuel - 1, by omega⟩
    simp only [divLoop]
    have hnz : unit.zero ≠ true := by
      intro h0
      have hz := (zero_iff hwu).mp h0
      omega
    rw [if_pos (by simpa using hnz)]
    have hvd1 : val divisor = d := by simpa using hvd
    -- after this last step the unit is zero, so the next iteration returns
    have hkey : ∀ q' r' : UInt64,
        val q' * d + val r' = X → val r' < d →
        (divLoop f q' r' divisor.rightShift unit.rightShift).1.val * d +
          (divLoop f q' r' divisor.rightShift unit.rightShift).2.val = X ∧
        (divLoop f q' r' divisor.rightShift unit.rightShift).2.val < d := by
      intro q' r' hinv' hr'
      have hz : (unit.rightShift).zero = true := by
        rw [zero_iff (wf_rightShift unit), val_rightShift hwu]
        omega
      cases f with
      | zero =>
        simp only [divLoop]
        exact ⟨hinv', hr'⟩
      | succ f' =>
        simp only [divLoop]
        rw [if_neg (by simpa using hz)]
        exact ⟨hinv', hr'⟩
    by_cases hc : divisor.cmp r ≤ 0
    · rw [if_pos hc]
      have hle : val divisor ≤ val r := (cmp_le_iff hwd hwr).mp hc
      have hsub : val (r.sub divisor) = val r - d := by
        rw [val_sub hwr hwd hle, hvd1]
      have hqd : val q * d + d ≤ X := by omega
      have hmul : val q + 1 ≤ (val q + 1) * d :=
        Nat.le_mul_of_pos_right _ (by omega)
      have hexp : (val q + 1) * d = val q * d + d := by ring
      have hqlt : val q + val unit < 2^64 := by
        rw [hvu]
        omega
      have hadd : val (q.add unit) = val q + 1 := by
        have := val_add hwq hwu hqlt
        omega
      have hinv' : val (q.add unit) * d + val (r.sub divisor) = X := by
        rw [hadd, hsub]
        omega
      have hr' : val (r.sub divisor) < d := by
        rw [hsub]
        omega
      exact hkey (q.add unit) (r.sub divisor) hinv' hr'
    · rw [if_neg hc]
      have hgt : ¬ (val divisor ≤ val r) := fun h =>
        hc ((cmp_le_iff hwd hwr).mpr h)
      exact hkey q r hinv (by omega)
  | succ j ih =>
    intro fuel hfuel d X q r divisor unit hwq hwr hwd hwu hd hvd hvu hr hinv hX
    obtain ⟨f, rfl⟩ : ∃ f, fuel = f + 1 := ⟨fuel - 1, by omega⟩
    simp only [divLoop]
    have hpos : 0 < (2:Nat)^(j+1) := by positivity
    have hnz : unit.zero ≠ true := by
      intro h0
      have hz := (zero_iff hwu).mp h0
      omega
    rw [if_pos (by simpa using hnz)]
    have hdr : val divisor.rightShift = d * 2^j := by
      rw [val_rightShift hwd, hvd]
      have h2 : d * 2^(j+1) = (d * 2^j) * 2 := by ring
      omega
    have hur : val unit.rightShift = 2^j := by
      rw [val_rightShift hwu, hvu]
      have h2 : (2:Nat)^(j+1) = 2^j * 2 := by ring
      omega
    have hdd : val divisor = d * 2^j * 2 := by
      rw [hvd]
      ring
    by_cases hc : divisor.cmp r ≤ 0
    · rw [if_pos hc]
      have hle : val divisor ≤ val r := (cmp_le_iff hwd hwr).mp hc
      have hsub : val (r.sub divisor) = val r - val divisor :=
        val_sub hwr hwd hle
      have hqd : val q * d + val divisor ≤ X := by omega
      have hexp : (val q + 2^(j+1)) * d = val q * d + 2^(j+1) * d := by ring
      have hexp2 : d * 2^(j+1) = 2^(j+1) * d := by ring
      have hmul : val q + 2^(j+1) ≤ (val q + 2^(j+1)) * d :=
        Nat.le_mul_of_pos_right _ (by omega)
      have hqlt : val q + val unit < 2^64 := by
        rw [hvu]
        omega
      have hadd : val (q.add unit) = val q + 2^(j+1) := by
        have := val_add hwq hwu hqlt
        omega
      have hinv' : val (q.add unit) * d + val (r.sub divisor) = X := by
        rw [hadd, hsub, hvd]
        omega
      have hr' : val (r.sub divisor) < 2 * val divisor.rightShift := by
        rw [hsub, hdr]
        omega
      exact ih f (by omega) d X (q.add unit) (r.sub divisor)
        divisor.rightShift unit.rightShift (wf_add q unit) (wf_sub r divisor)
        (wf_rightShift divisor) (wf_rightShift unit) hd hdr hur hr' hinv' hX
    · rw [if_neg hc]
      have hgt : ¬ (val divisor ≤ val r) := fun h =>
        hc ((cmp_le_iff hwd hwr).mpr h)
      have hr' : val r < 2 * val divisor.rightShift := by
        rw [hdr]
        omega
      exact ih f (by omega) d X q r divisor.rightShift unit.rightShift
        hwq hwr (wf_rightShift divisor) (wf_rightShift unit) hd hdr hur hr'
        hinv hX

/-- C7.  `UInt64.div` contract: dividing by zero returns the empty
sentinel (no exception); dividing by a nonzero 32-bit `d` returns
`[quotient, remainder]` with `value = quotient * d + remainder` and
`remainder < d`. -/
theorem div_spec (x : UInt64) (d : Nat) (hwf : wf x) (hd32 : d < 2^32) :
    (d = 0 → x.div d = []) ∧
    (d ≠ 0 → ∃ q r, x.div d = [q, r] ∧
      val q * d + val r = val x ∧ val r < d) := by
  constructor
  · intro h0
    simp [div, h0]
  · intro hne
    have hd : 1 ≤ d := by omega
    simp only [div, if_neg hne]
    have hwx : wf x := hwf
    have halign := alignLoop_spec 64 0 d ⟨d, 0⟩ ⟨1, 0⟩ hd
      ⟨by simpa using hd32, by norm_num [wf]⟩
      ⟨by norm_num, by norm_num⟩
      (by simp [val]) (by simp [val])
      (by have : (2:Nat)^63 ≤ 2^64 := by norm_num
          have hh : d * 2^0 * 2^64 = d * 2^64 := by ring
          rw [hh]
          nlinarith)
      (by simpa using by omega)
    obtain ⟨m, hdv, huv, h63, h64, hwdv, hwuv⟩ := halign
    have hm : m ≤ 63 := by
      have h2m : (2:Nat)^m < 2^64 := by
        have : (2:Nat)^m ≤ d * 2^m := Nat.le_mul_of_pos_left _ (by omega)
        omega
      have := (Nat.pow_lt_pow_iff_right (by norm_num : 1 < 2)).mp h2m
      omega
    have hdiv := divLoop_spec m 65 (by omega) d (val x) ⟨0, 0⟩ ⟨x.lo, x.hi⟩
      (alignLoop 64 ⟨d, 0⟩ ⟨1, 0⟩).1 (alignLoop 64 ⟨d, 0⟩ ⟨1, 0⟩).2
      ⟨by norm_num, by norm_num⟩ hwf hwdv hwuv hd hdv huv
      (by have hx64 : val x < 2^64 := by
            unfold wf at hwf
            unfold val
            omega
          rw [hdv]
          have hxx : val ⟨x.lo, x.hi⟩ = val x := rfl
          rw [hxx]
          omega)
      (by simp [val])
      (by unfold wf at hwf
          unfold val
          omega)
    exact ⟨_, _, rfl, hdiv.1, hdiv.2⟩

end UInt64

/-- C7 witness: the division contract applied at `x = (5, 1)`
(value `2^32 + 5`) and `d = 10`, plus the zero-divisor sentinel. -/
theorem div_spec_witness :
    UInt64.div ⟨5, 1⟩ 0 = [] ∧
    ∃ q r, UInt64.div ⟨5, 1⟩ 10 = [q, r] ∧
      UInt64.val q * 10 + UInt64.val r = UInt64.val ⟨5, 1⟩ ∧
      UInt64.val r < 10 :=
  ⟨(UInt64.div_spec ⟨5, 1⟩ 0 ⟨by norm_num, by norm_num⟩ (by norm_num)).1 rfl,
   (UInt64.div_spec ⟨5, 1⟩ 10 ⟨by norm_num, by norm_num⟩ (by norm_num)).2
     (by norm_num)⟩

/-! ### `BinaryDecoder`: state, byte fetch, JavaScript coercions

The decoder state mirrors the class fields; the source's `end` field is
named `endPos` (`end` is reserved in Lean).  The cursor is an `Int`: the
source lets it go negative via `setCursor`/`unskipVarint`, and `getError`
tests `cursor < 0`.  A read returns its result (or the thrown exception)
together with the state of the mutated instance at that point. -/

inductive JsError where
  | assertionError
  | typeError
deriving DecidableEq

structure BinaryDecoder where
  bytes : Option (List Nat)
  start : Int
  endPos : Int
  cursor : Int
  error : Bool
deriving DecidableEq

/-- Result and post-state of a read. -/
abbrev ReadResult (α : Type) := Except JsError α × BinaryDecoder

/-- `bytes[i]` on a `Uint8Array`: `undefined` out of bounds. -/
def fetch (bs : List Nat) (i : Int) : Option Nat :=
  if i < 0 then none else bs[i.toNat]?

/-- JavaScript `x < k` where `x` may be `undefined` (`undefined < k` is
`false`). -/
def jsLT (t : Option Nat) (k : Nat) : Bool :=
  match t with
  | some b => decide (b < k)
  | none => false

/-- JavaScript `x >= k` where `x` may be `undefined` (`undefined >= k` is
`false`). -/
def jsGE (t : Option Nat) (k : Nat) : Bool :=
  match t with
  | some b => decide (k ≤ b)
  | none => false

/-- A possibly `undefined` byte as a bitwise operand
(`ToInt32(undefined) = 0`; `ToUint16(undefined) = 0` in
`String.fromCharCode`). -/
def bits (t : Option Nat) : Nat := t.getD 0

/-- JavaScript truthiness of a possibly `undefined` byte. -/
def jsTruthy (t : Option Nat) : Bool :=
  match t with
  | some b => decide (b ≠ 0)
  | none => false

/-- Embeds `BinaryDecoder.getError`:
`this.error || this.cursor < 0 || this.cursor > this.end`. -/
def getError (s : BinaryDecoder) : Bool :=
  s.error || decide (s.cursor < 0) || decide (s.cursor > s.endPos)

/-- C8 (amended).  `getError` returns true exactly when the latched flag
is set, the cursor is negative, or the cursor is past `end`; in
particular it is false whenever the flag is clear and `0 ≤ cursor ≤ end`
(even when `cursor < start`), and true whenever `cursor > end`.  The
lower bound tested is `0`, not `start`. -/
theorem getError_spec (s : BinaryDecoder) :
    (getError s = true ↔
      s.error = true ∨ s.cursor < 0 ∨ s.cursor > s.endPos) ∧
    (s.error = false → 0 ≤ s.cursor → s.cursor ≤ s.endPos →
      getError s = false) ∧
    (s.cursor > s.endPos → getError s = true) := by
  unfold getError
  refine ⟨?_, ?_, ?_⟩
  · simp [Bool.or_eq_true, or_assoc]
  · intro he h0 hend
    simp [he, not_lt.mpr h0, not_lt.mpr hend]
  · intro h
    simp [h]

/-- C8 witness: `getError` applied at a concrete in-window state. -/
theorem getError_spec_witness :
    getError ⟨some [0, 0, 0, 0], 0, 3, 2, false⟩ = false :=
  (getError_spec ⟨some [0, 0, 0, 0], 0, 3, 2, false⟩).2.1 rfl
    (by norm_num) (by norm_num)

/-- C8 counterexample: the claim says `getError` is true whenever
`cursor < start`, but the source tests `cursor < 0`: in the reachable
state with `start = 2`, `end = 3`, `cursor = 1` (via
`setBlock(bytes, 2, 1)` then `setCursor(1)`) and the flag clear,
`getError` returns `false` although `cursor < start`. -/
theorem getError_below_start_is_false :
    getError ⟨some [0, 0, 0, 0], 2, 3, 1, false⟩ = false ∧
    (1 : Int) < 2 ∧
    (⟨some [0, 0, 0, 0], 2, 3, 1, false⟩ : BinaryDecoder).error = false := by
  refine ⟨rfl, by norm_num, rfl⟩

/-! ### Decoder instance pool (`alloc` / `free`)

The static `instanceCache` array is a stack (push/pop at the end); it is
embedded as a list whose head is the top of the stack. -/

/-- `new BinaryDecoder()` with no byte source. -/
def newDecoder : BinaryDecoder :=
  { bytes := none, start := 0, endPos := 0, cursor := 0, error := false }

/-- `BinaryDecoder.clear`. -/
def clear (_ : BinaryDecoder) : BinaryDecoder :=
  { bytes := none, start := 0, endPos := 0, cursor := 0, error := false }

/-- `BinaryDecoder.alloc()` with no byte source: pop a cached instance if
the cache is nonempty, else construct one. -/
def alloc (pool : List BinaryDecoder) : BinaryDecoder × List BinaryDecoder :=
  match pool with
  | d :: rest => (d, rest)
  | [] => (newDecoder, [])

/-- `BinaryDecoder.free`: clear, then push back only while the cache
holds fewer than 100 instances. -/
def free (d : BinaryDecoder) (pool : List BinaryDecoder) :
    List BinaryDecoder :=
  if pool.length < 100 then clear d :: pool else pool

/-- One `alloc().free()` cycle against the shared pool. -/
def allocFreeCycle (pool : List BinaryDecoder) : List BinaryDecoder :=
  free (alloc pool).1 (alloc pool).2

/-- The pool after `n` sequential `alloc().free()` cycles from empty. -/
def cyclesPool : Nat → List BinaryDecoder
  | 0 => []
  | n+1 => allocFreeCycle (cyclesPool n)

/-- C9 (amended).  Starting from an empty pool, `alloc().free()` repeated
`n` times leaves the pool at size `min n 1` — the first cycle constructs
and caches one instance, and every later cycle pops that instance and
pushes it back — and `free` never grows the pool beyond the cap of 100
because it discards the instance once the cap is reached. -/
theorem pool_cycles_size :
    (∀ n, (cyclesPool n).length = min n 1) ∧
    (∀ d pool, pool.length ≤ 100 → (free d pool).length ≤ 100) := by
  constructor
  · intro n
    induction n with
    | zero => rfl
    | succ n ih =>
      cases hp : cyclesPool n with
      | nil =>
        simp [cyclesPool, allocFreeCycle, hp, alloc, free]
      | cons d rest =>
        have hlen : rest.length + 1 = min n 1 := by
          have h := ih
          rw [hp] at h
          simpa using h
        have hr0 : rest = [] := List.length_eq_zero.mp (by omega)
        subst hr0
        simp only [cyclesPool, allocFreeCycle, hp, alloc, free,
          List.length_nil]
        rw [if_pos (by norm_num)]
        simp only [List.length_cons, List.length_nil]
        omega
  · intro d pool hlen
    unfold free
    split
    · simp only [List.length_cons]
      omega
    · omega

/-- C9 witness: the pool-size theorem applied at `n = 5` and at a
100-element pool. -/
theorem pool_cycles_size_witness :
    (cyclesPool 5).length = min 5 1 ∧
    (free newDecoder (List.replicate 100 newDecoder)).length ≤ 100 :=
  ⟨pool_cycles_size.1 5,
   pool_cycles_size.2 newDecoder (List.replicate 100 newDecoder)
     (by simp)⟩

/-- C9 counterexample: the claim says the pool size after `n ≤ 100`
cycles is `min n 100`, but after 2 cycles the pool holds a single
instance (`alloc` pops the cached instance before `free` returns it). -/
theorem pool_two_cycles_size_one :
    (cyclesPool 2).length = 1 ∧ (1 : Nat) ≠ min 2 100 := by
  constructor
  · rfl
  · decide

/-! ### Decoder scalar reads

Each read's unrolled byte accesses, cursor arithmetic and assertions
mirror the source line by line; `assert(cond)` becomes a conditional
returning `Except.error JsError.assertionError` with the state as
mutated up to the assertion. -/

/-- Embeds `BinaryDecoder.readUint8`: raw array read (possibly
`undefined`), `cursor += 1`, `assert(cursor <= end)`. -/
def readUint8 (s : BinaryDecoder) : ReadResult (Option Nat) :=
  match s.bytes with
  | none => (Except.error JsError.typeError, s)
  | some bs =>
    let a := fetch bs (s.cursor + 0)
    let s' := { s with cursor := s.cursor + 1 }
    if s'.cursor ≤ s.endPos then (Except.ok a, s')
    else (Except.error JsError.assertionError, s')

/-- Embeds `BinaryDecoder.readUint16`. -/
def readUint16 (s : BinaryDecoder) : ReadResult Nat :=
  match s.bytes with
  | none => (Except.error JsError.typeError, s)
  | some bs =>
    let a := fetch bs (s.cursor + 0)
    let b := fetch bs (s.cursor + 1)
    let s' := { s with cursor := s.cursor + 2 }
    if s'.cursor ≤ s.endPos then
      (Except.ok ((bits a <<< 0) ||| ((bits b <<< 8) % 2^32)), s')
    else (Except.error JsError.assertionError, s')

/-- Embeds `BinaryDecoder.readUint32` (`(... ) >>> 0`). -/
def readUint32 (s : BinaryDecoder) : ReadResult Nat :=
  match s.bytes with
  | none => (Except.error JsError.typeError, s)
  | some bs =>
    let a := fetch bs (s.cursor + 0)
    let b := fetch bs (s.cursor + 1)
    let c := fetch bs (s.cursor + 2)
    let d := fetch bs (s.cursor + 3)
    let s' := { s with cursor := s.cursor + 4 }
    if s'.cursor ≤ s.endPos then
      (Except.ok (((bits a <<< 0) ||| ((bits b <<< 8) % 2^32) |||
        ((bits c <<< 16) % 2^32) ||| ((bits d <<< 24) % 2^32)) % 2^32), s')
    else (Except.error JsError.assertionError, s')

/-- Sign extension of the low 8 bits (`(a << 24) >> 24`). -/
def sext8 (x : Nat) : Int :=
  if x % 2^8 < 2^7 then (x % 2^8 : Int) else (x % 2^8 : Int) - 2^8

/-- Sign extension of the low 16 bits (`(v << 16) >> 16`). -/
def sext16 (x : Nat) : Int :=
  if x % 2^16 < 2^15 then (x % 2^16 : Int) else (x % 2^16 : Int) - 2^16

/-- Reinterpretation of a 32-bit pattern as a signed value. -/
def sext32 (x : Nat) : Int :=
  if x % 2^32 < 2^31 then (x % 2^32 : Int) else (x % 2^32 : Int) - 2^32

/-- Embeds `BinaryDecoder.readInt8`. -/
def readInt8 (s : BinaryDecoder) : ReadResult Int :=
  match s.bytes with
  | none => (Except.error JsError.typeError, s)
  | some bs =>
    let a := fetch bs (s.cursor + 0)
    let s' := { s with cursor := s.cursor + 1 }
    if s'.cursor ≤ s.endPos then (Except.ok (sext8 (bits a)), s')
    else (Except.error JsError.assertionError, s')

/-- Embeds `BinaryDecoder.readInt16`. -/
def readInt16 (s : BinaryDecoder) : ReadResult Int :=
  match s.bytes with
  | none => (Except.error JsError.typeError, s)
  | some bs =>
    let a := fetch bs (s.cursor + 0)
    let b := fetch bs (s.cursor + 1)
    let s' := { s with cursor := s.cursor + 2 }
    if s'.cursor ≤ s.endPos then
      (Except.ok (sext16 ((bits a <<< 0) ||| ((bits b <<< 8) % 2^32))), s')
    else (Except.error JsError.assertionError, s')

/-- Embeds `BinaryDecoder.readInt32`. -/
def readInt32 (s : BinaryDecoder) : ReadResult Int :=
  match s.bytes with
  | none => (Except.error JsError.typeError, s)
  | some bs =>
    let a := fetch bs (s.cursor + 0)
    let b := fetch bs (s.cursor + 1)
    let c := fetch bs (s.cursor + 2)
    let d := fetch bs (s.cursor + 3)
    let s' := { s with cursor := s.cursor + 4 }
    if s'.cursor ≤ s.endPos then
      (Except.ok (sext32 ((bits a <<< 0) ||| ((bits b <<< 8) % 2^32) |||
        ((bits c <<< 16) % 2^32) ||| ((bits d <<< 24) % 2^32))), s')
    else (Except.error JsError.assertionError, s')

/-- Embeds `BinaryDecoder.readBool`:
`this.bytes ? !!this.bytes[this.cursor++] : false` — no assertion, and
no exception when unbound. -/
def readBool (s : BinaryDecoder) : ReadResult Bool :=
  match s.bytes with
  | none => (Except.ok false, s)
  | some bs =>
    (Except.ok (jsTruthy (fetch bs s.cursor)), { s with cursor := s.cursor + 1 })

/-- Embeds `BinaryDecoder.readFixedHash64`: eight raw byte reads into a
hash string (`String.fromCharCode` maps an `undefined` byte to NUL),
`cursor += 8`, and no assertion. -/
def readFixedHash64 (s : BinaryDecoder) : ReadResult (List Nat) :=
  match s.bytes with
  | none => (Except.error JsError.typeError, s)
  | some bs =>
    (Except.ok [bits (fetch bs (s.cursor + 0)), bits (fetch bs (s.cursor + 1)),
      bits (fetch bs (s.cursor + 2)), bits (fetch bs (s.cursor + 3)),
      bits (fetch bs (s.cursor + 4)), bits (fetch bs (s.cursor + 5)),
      bits (fetch bs (s.cursor + 6)), bits (fetch bs (s.cursor + 7))],
     { s with cursor := s.cursor + 8 })

/-- Embeds `BinaryDecoder.readUnsignedVarint32` (unrolled fast path).
The first four bytes contribute 7 bits each; the fifth is masked with
`0x0f`.  When the fifth byte still has its continuation bit set, the
source does `this.cursor += 5` and then short-circuits over up to five
more bytes (`bytes[this.cursor++] >= 128 && ...`), asserting `false`
only when all five have the high bit set; afterwards it asserts
`cursor <= end` and returns `x` (the extension path returns the signed
`x`; both paths return the same 32-bit pattern). -/
def readUnsignedVarint32 (s : BinaryDecoder) : ReadResult Nat :=
  match s.bytes with
  | none => (Except.error JsError.typeError, s)
  | some bs =>
    let t0 := fetch bs (s.cursor + 0)
    let x0 := bits t0 &&& 0x7f
    if jsLT t0 128 then
      let s' := { s with cursor := s.cursor + 1 }
      if s'.cursor ≤ s.endPos then (Except.ok x0, s')
      else (Except.error JsError.assertionError, s')
    else
      let t1 := fetch bs (s.cursor + 1)
      let x1 := x0 ||| (((bits t1 &&& 0x7f) <<< 7) % 2^32)
      if jsLT t1 128 then
        let s' := { s with cursor := s.cursor + 2 }
        if s'.cursor ≤ s.endPos then (Except.ok x1, s')
        else (Except.error JsError.assertionError, s')
      else
        let t2 := fetch bs (s.cursor + 2)
        let x2 := x1 ||| (((bits t2 &&& 0x7f) <<< 14) % 2^32)
        if jsLT t2 128 then
          let s' := { s with cursor := s.cursor + 3 }
          if s'.cursor ≤ s.endPos then (Except.ok x2, s')
          else (Except.error JsError.assertionError, s')
        else
          let t3 := fetch bs (s.cursor + 3)
          let x3 := x2 ||| (((bits t3 &&& 0x7f) <<< 21) % 2^32)
          if jsLT t3 128 then
            let s' := { s with cursor := s.cursor + 4 }
            if s'.cursor ≤ s.endPos then (Except.ok x3, s')
            else (Except.error JsError.assertionError, s')
          else
            let t4 := fetch bs (s.cursor + 4)
            let x4 := x3 ||| (((bits t4 &&& 0x0f) <<< 28) % 2^32)
            if jsLT t4 128 then
              let s' := { s with cursor := s.cursor + 5 }
              if s'.cursor ≤ s.endPos then (Except.ok (x4 % 2^32), s')
              else (Except.error JsError.assertionError, s')
            else
              -- this.cursor += 5, then the short-circuit chain
              if ¬ jsGE (fetch bs (s.cursor + 5)) 128 then
                let s' := { s with cursor := s.cursor + 6 }
                if s'.cursor ≤ s.endPos then (Except.ok x4, s')
                else (Except.error JsError.assertionError, s')
              else if ¬ jsGE (fetch bs (s.cursor + 6)) 128 then
                let s' := { s with cursor := s.cursor + 7 }
                if s'.cursor ≤ s.endPos then (Except.ok x4, s')
                else (Except.error JsError.assertionError, s')
              else if ¬ jsGE (fetch bs (s.cursor + 7)) 128 then
                let s' := { s with cursor := s.cursor + 8 }
                if s'.cursor ≤ s.endPos then (Except.ok x4, s')
                else (Except.error JsError.assertionError, s')
              else if ¬ jsGE (fetch bs (s.cursor + 8)) 128 then
                let s' := { s with cursor := s.cursor + 9 }
                if s'.cursor ≤ s.endPos then (Except.ok x4, s')
                else (Except.error JsError.assertionError, s')
              else if ¬ jsGE (fetch bs (s.cursor + 9)) 128 then
                let s' := { s with cursor := s.cursor + 10 }
                if s'.cursor ≤ s.endPos then (Except.ok x4, s')
                else (Except.error JsError.assertionError, s')
              else
                -- varint too long: assert(false)
                (Except.error JsError.assertionError,
                 { s with cursor := s.cursor + 10 })

/-- Embeds `BinaryDecoder.readSplitVarint64` (loops unrolled; `temp`
starts at 128, so the first byte is always read).  No `cursor <= end`
assertion anywhere; a missing terminator within ten bytes throws (the
`this.error = true` after the `throw` is unreachable).  An
out-of-bounds read yields `undefined`, which fails both `temp >= 128`
and `temp < 128`, so it also reaches the `throw`. -/
def readSplitVarint64 {T : Type} (s : BinaryDecoder)
    (convert : Nat → Nat → T) : ReadResult T :=
  match s.bytes with
  | none => (Except.error JsError.typeError, s)
  | some bs =>
    let t1 := fetch bs (s.cursor + 0)
    let lo1 := bits t1 &&& 0x7f
    let finish := fun (t : Option Nat) (k : Int) (lo hi : Nat) =>
      if jsLT t 128 then
        (Except.ok (convert (lo % 2^32) (hi % 2^32)),
         { s with cursor := s.cursor + k })
      else
        (Except.error JsError.assertionError, { s with cursor := s.cursor + k })
    if ¬ jsGE t1 128 then finish t1 1 lo1 0
    else
      let t2 := fetch bs (s.cursor + 1)
      let lo2 := lo1 ||| (((bits t2 &&& 0x7f) <<< 7) % 2^32)
      if ¬ jsGE t2 128 then finish t2 2 lo2 0
      else
        let t3 := fetch bs (s.cursor + 2)
        let lo3 := lo2 ||| (((bits t3 &&& 0x7f) <<< 14) % 2^32)
        if ¬ jsGE t3 128 then finish t3 3 lo3 0
        else
          let t4 := fetch bs (s.cursor + 3)
          let lo4 := lo3 ||| (((bits t4 &&& 0x7f) <<< 21) % 2^32)
          if ¬ jsGE t4 128 then finish t4 4 lo4 0
          else
            let t5 := fetch bs (s.cursor + 4)
            let lo5 := lo4 ||| (((bits t5 &&& 0x7f) <<< 28) % 2^32)
            let hi5 := (bits t5 &&& 0x7f) >>> 4
            if ¬ jsGE t5 128 then finish t5 5 lo5 hi5
            else
              let t6 := fetch bs (s.cursor + 5)
              let hi6 := hi5 ||| (((bits t6 &&& 0x7f) <<< 3) % 2^32)
              if ¬ jsGE t6 128 then finish t6 6 lo5 hi6
              else
                let t7 := fetch bs (s.cursor + 6)
                let hi7 := hi6 ||| (((bits t7 &&& 0x7f) <<< 10) % 2^32)
                if ¬ jsGE t7 128 then finish t7 7 lo5 hi7
                else
                  let t8 := fetch bs (s.cursor + 7)
                  let hi8 := hi7 ||| (((bits t8 &&& 0x7f) <<< 17) % 2^32)
                  if ¬ jsGE t8 128 then finish t8 8 lo5 hi8
                  else
                    let t9 := fetch bs (s.cursor + 8)
                    let hi9 := hi8 ||| (((bits t9 &&& 0x7f) <<< 24) % 2^32)
                    if ¬ jsGE t9 128 then finish t9 9 lo5 hi9
                    else
                      let t10 := fetch bs (s.cursor + 9)
                      let hi10 := hi9 ||| (((bits t10 &&& 0x7f) <<< 31) % 2^32)
                      finish t10 10 lo5 hi10

/-- Embeds `BinaryDecoder.readSplitFixed64`: `cursor += 8`, then a
descending loop accumulating `lo` from bytes `cursor .. cursor+7` and
`hi` from bytes `cursor+4 .. cursor+11` (the top four reads of each are
shifted out by the four later `<< 8` steps). -/
def readSplitFixed64 {T : Type} (s : BinaryDecoder)
    (convert : Nat → Nat → T) : ReadResult T :=
  match s.bytes with
  | none => (Except.error JsError.typeError, s)
  | some bs =>
    let step := fun (acc : Nat × Nat) (i : Int) =>
      (((acc.1 <<< 8) % 2^32) ||| bits (fetch bs i),
       ((acc.2 <<< 8) % 2^32) ||| bits (fetch bs (i + 4)))
    let lh := (List.range 8).foldl
      (fun acc k => step acc (s.cursor + 7 - (k : Int))) (0, 0)
    (Except.ok (convert lh.1 lh.2), { s with cursor := s.cursor + 8 })

/-- `Uint8Array.subarray` with clamping. -/
def jsSubarray (bs : List Nat) (a b : Int) : List Nat :=
  let n : Int := bs.length
  ((bs.take (max 0 (min b n)).toNat).drop (max 0 (min a n)).toNat)

/-- Embeds `BinaryDecoder.readBytes`: invalid length or overrun of the
underlying array sets the latched error flag and throws; otherwise the
slice is taken, `cursor += length`, `assert(cursor <= end)`. -/
def readBytes (s : BinaryDecoder) (length : Int) : ReadResult (List Nat) :=
  match s.bytes with
  | none => (Except.error JsError.typeError, s)
  | some bs =>
    if length < 0 ∨ s.cursor + length > (bs.length : Int) then
      (Except.error JsError.typeError, { s with error := true })
    else
      let result := jsSubarray bs s.cursor (s.cursor + length)
      let s' := { s with cursor := s.cursor + length }
      if s'.cursor ≤ s.endPos then (Except.ok result, s')
      else (Except.error JsError.assertionError, s')

/-- Loop of `BinaryDecoder.readString`: decode UTF-8 into UTF-16 code
units while `cursor < end`; an orphaned continuation byte (or a byte
`>= 248`, or an `undefined` out-of-bounds read, which fails every
comparison) contributes nothing.  `codepoint -= 0x10000` may go negative
in JavaScript on malformed input; `(codepoint >> 10) & 1023` and
`codepoint & 1023` only see its low bits, so the two's-complement
pattern `(codepoint + 2^32 - 0x10000) % 2^32` gives the same code units
(the sign-filled bits of `>> 10` vanish under `& 1023`).  The first
argument is structural fuel; `length` iterations always suffice since
the cursor advances every iteration. -/
def readStringLoop (bs : List Nat) : Nat → Int → Int → List Nat → List Nat × Int
  | 0, cursor, _, codeUnits => (codeUnits, cursor)
  | fuel+1, cursor, stop, codeUnits =>
    if cursor < stop then
      let t := fetch bs cursor
      if jsLT t 128 then
        readStringLoop bs fuel (cursor + 1) stop (codeUnits ++ [bits t])
      else if jsLT t 192 then
        readStringLoop bs fuel (cursor + 1) stop codeUnits
      else if jsLT t 224 then
        let c2 := fetch bs (cursor + 1)
        readStringLoop bs fuel (cursor + 2) stop
          (codeUnits ++ [((bits t &&& 31) <<< 6) ||| (bits c2 &&& 63)])
      else if jsLT t 240 then
        let c2 := fetch bs (cursor + 1)
        let c3 := fetch bs (cursor + 2)
        readStringLoop bs fuel (cursor + 3) stop
          (codeUnits ++ [((bits t &&& 15) <<< 12) |||
            ((bits c2 &&& 63) <<< 6) ||| (bits c3 &&& 63)])
      else if jsLT t 248 then
        let c2 := fetch bs (cursor + 1)
        let c3 := fetch bs (cursor + 2)
        let c4 := fetch bs (cursor + 3)
        let codepoint := ((bits t &&& 7) <<< 18) ||| ((bits c2 &&& 63) <<< 12) |||
          ((bits c3 &&& 63) <<< 6) ||| (bits c4 &&& 63)
        let pat := (codepoint + 2^32 - 0x10000) % 2^32
        readStringLoop bs fuel (cursor + 4) stop
          (codeUnits ++ [((pat >>> 10) &&& 1023) + 0xd800,
            (pat &&& 1023) + 0xdc00])
      else
        readStringLoop bs fuel (cursor + 1) stop codeUnits
    else (codeUnits, cursor)

/-- Embeds `BinaryDecoder.readString` (the 8192-unit chunked flushes to
the host string assembler concatenate to the same code-unit sequence):
result and final cursor of the loop; no `cursor <= end` assertion. -/
def readString (s : BinaryDecoder) (length : Int) : ReadResult (List Nat) :=
  match s.bytes with
  | none => (Except.error JsError.typeError, s)
  | some bs =>
    let r := readStringLoop bs length.toNat s.cursor (s.cursor + length) []
    (Except.ok r.1, { s with cursor := r.2 })

/-- The frame fields of the decoder: everything but `cursor` and
`error`. -/
def sameFrame (s s' : BinaryDecoder) : Prop :=
  s'.bytes = s.bytes ∧ s'.start = s.start ∧ s'.endPos = s.endPos

/-- C10.  Read-only frame condition: every scalar read leaves `bytes`,
`start` and `end` unchanged, on success and on every error path; only
`cursor` and the `error` flag are modified. -/
theorem reads_frame :
    (∀ s, sameFrame s (readUint8 s).2) ∧
    (∀ s, sameFrame s (readUint16 s).2) ∧
    (∀ s, sameFrame s (readUint32 s).2) ∧
    (∀ s, sameFrame s (readInt8 s).2) ∧
    (∀ s, sameFrame s (readInt16 s).2) ∧
    (∀ s, sameFrame s (readInt32 s).2) ∧
    (∀ s, sameFrame s (readBool s).2) ∧
    (∀ s, sameFrame s (readFixedHash64 s).2) ∧
    (∀ s, sameFrame s (readUnsignedVarint32 s).2) ∧
    (∀ (T : Type) (convert : Nat → Nat → T) s,
      sameFrame s (readSplitVarint64 s convert).2) ∧
    (∀ (T : Type) (convert : Nat → Nat → T) s,
      sameFrame s (readSplitFixed64 s convert).2) ∧
    (∀ s length, sameFrame s (readBytes s length).2) ∧
    (∀ s length, sameFrame s (readString s length).2) := by
  refine ⟨?_, ?_, ?_, ?_, ?_, ?_, ?_, ?_, ?_, ?_, ?_, ?_, ?_⟩
  · intro s
    cases hb : s.bytes <;> refine ⟨?_, ?_, ?_⟩ <;>
      simp only [readUint8, hb,
        apply_ite (Prod.snd : Except JsError (Option Nat) × BinaryDecoder → BinaryDecoder),
        apply_ite BinaryDecoder.bytes, apply_ite BinaryDecoder.start,
        apply_ite BinaryDecoder.endPos, ite_self]
  · intro s
    cases hb : s.bytes <;> refine ⟨?_, ?_, ?_⟩ <;>
      simp only [readUint16, hb,
        apply_ite (Prod.snd : Except JsError Nat × BinaryDecoder → BinaryDecoder),
        apply_ite BinaryDecoder.bytes, apply_ite BinaryDecoder.start,
        apply_ite BinaryDecoder.endPos, ite_self]
  · intro s
    cases hb : s.bytes <;> refine ⟨?_, ?_, ?_⟩ <;>
      simp only [readUint32, hb,
        apply_ite (Prod.snd : Except JsError Nat × BinaryDecoder → BinaryDecoder),
        apply_ite BinaryDecoder.bytes, apply_ite BinaryDecoder.start,
        apply_ite BinaryDecoder.endPos, ite_self]
  · intro s
    cases hb : s.bytes <;> refine ⟨?_, ?_, ?_⟩ <;>
      simp only [readInt8, hb,
        apply_ite (Prod.snd : Except JsError Int × BinaryDecoder → BinaryDecoder),
        apply_ite BinaryDecoder.bytes, apply_ite BinaryDecoder.start,
        apply_ite BinaryDecoder.endPos, ite_self]
  · intro s
    cases hb : s.bytes <;> refine ⟨?_, ?_, ?_⟩ <;>
      simp only [readInt16, hb,
        apply_ite (Prod.snd : Except JsError Int × BinaryDecoder → BinaryDecoder),
        apply_ite BinaryDecoder.bytes, apply_ite BinaryDecoder.start,
        apply_ite BinaryDecoder.endPos, ite_self]
  · intro s
    cases hb : s.bytes <;> refine ⟨?_, ?_, ?_⟩ <;>
      simp only [readInt32, hb,
        apply_ite (Prod.snd : Except JsError Int × BinaryDecoder → BinaryDecoder),
        apply_ite BinaryDecoder.bytes, apply_ite BinaryDecoder.start,
        apply_ite BinaryDecoder.endPos, ite_self]
  · intro s
    cases hb : s.bytes <;> refine ⟨?_, ?_, ?_⟩ <;>
      simp only [readBool, hb]
  · intro s
    cases hb : s.bytes <;> refine ⟨?_, ?_, ?_⟩ <;>
      simp only [readFixedHash64, hb]
  · intro s
    cases hb : s.bytes <;> refine ⟨?_, ?_, ?_⟩ <;>
      simp only [readUnsignedVarint32, hb,
        apply_ite (Prod.snd : Except JsError Nat × BinaryDecoder → BinaryDecoder),
        apply_ite BinaryDecoder.bytes, apply_ite BinaryDecoder.start,
        apply_ite BinaryDecoder.endPos, ite_self]
  · intro T convert s
    cases hb : s.bytes <;> refine ⟨?_, ?_, ?_⟩ <;>
      simp only [readSplitVarint64, hb,
        apply_ite (Prod.snd : Except JsError T × BinaryDecoder → BinaryDecoder),
        apply_ite BinaryDecoder.bytes, apply_ite BinaryDecoder.start,
        apply_ite BinaryDecoder.endPos, ite_self]
  · intro T convert s
    cases hb : s.bytes <;> refine ⟨?_, ?_, ?_⟩ <;>
      simp only [readSplitFixed64, hb]
  · intro s length
    cases hb : s.bytes <;> refine ⟨?_, ?_, ?_⟩ <;>
      simp only [readBytes, hb,
        apply_ite (Prod.snd : Except JsError (List Nat) × BinaryDecoder → BinaryDecoder),
        apply_ite BinaryDecoder.bytes, apply_ite BinaryDecoder.start,
        apply_ite BinaryDecoder.endPos, ite_self]
  · intro s length
    cases hb : s.bytes <;> refine ⟨?_, ?_, ?_⟩ <;>
      simp only [readString, hb]

/-- C5 (amended).  The fixed-width integer reads advance the cursor by
exactly the bytes consumed and assert `cursor ≤ end` — they never
return normally with the cursor past `end` — but `readFixedHash64`,
`readBool`, `readString` and `readSplitVarint64` advance the cursor
without that assertion and return normally regardless of `end`. -/
theorem reads_cursor_assert :
    (∀ s bs, s.bytes = some bs → s.cursor + 1 ≤ s.endPos →
      ∃ v, readUint8 s = (Except.ok v, { s with cursor := s.cursor + 1 })) ∧
    (∀ s bs, s.bytes = some bs → s.endPos < s.cursor + 1 →
      readUint8 s = (Except.error JsError.assertionError,
        { s with cursor := s.cursor + 1 })) ∧
    (∀ s bs, s.bytes = some bs → s.cursor + 2 ≤ s.endPos →
      ∃ v, readUint16 s = (Except.ok v, { s with cursor := s.cursor + 2 })) ∧
    (∀ s bs, s.bytes = some bs → s.endPos < s.cursor + 2 →
      readUint16 s = (Except.error JsError.assertionError,
        { s with cursor := s.cursor + 2 })) ∧
    (∀ s bs, s.bytes = some bs → s.cursor + 4 ≤ s.endPos →
      ∃ v, readUint32 s = (Except.ok v, { s with cursor := s.cursor + 4 })) ∧
    (∀ s bs, s.bytes = some bs → s.endPos < s.cursor + 4 →
      readUint32 s = (Except.error JsError.assertionError,
        { s with cursor := s.cursor + 4 })) ∧
    (∀ s bs, s.bytes = some bs → s.cursor + 1 ≤ s.endPos →
      ∃ v, readInt8 s = (Except.ok v, { s with cursor := s.cursor + 1 })) ∧
    (∀ s bs, s.bytes = some bs → s.endPos < s.cursor + 1 →
      readInt8 s = (Except.error JsError.assertionError,
        { s with cursor := s.cursor + 1 })) ∧
    (∀ s bs, s.bytes = some bs → s.cursor + 2 ≤ s.endPos →
      ∃ v, readInt16 s = (Except.ok v, { s with cursor := s.cursor + 2 })) ∧
    (∀ s bs, s.bytes = some bs → s.endPos < s.cursor + 2 →
      readInt16 s = (Except.error JsError.assertionError,
        { s with cursor := s.cursor + 2 })) ∧
    (∀ s bs, s.bytes = some bs → s.cursor + 4 ≤ s.endPos →
      ∃ v, readInt32 s = (Except.ok v, { s with cursor := s.cursor + 4 })) ∧
    (∀ s bs, s.bytes = some bs → s.endPos < s.cursor + 4 →
      readInt32 s = (Except.error JsError.assertionError,
        { s with cursor := s.cursor + 4 })) ∧
    (∀ s bs, s.bytes = some bs →
      ∃ v, readFixedHash64 s = (Except.ok v,
        { s with cursor := s.cursor + 8 })) ∧
    (∀ s bs, s.bytes = some bs →
      ∃ v, readBool s = (Except.ok v, { s with cursor := s.cursor + 1 })) ∧
    (∀ s bs (length : Int), s.bytes = some bs →
      ∃ v c, readString s length = (Except.ok v, { s with cursor := c })) ∧
    (∀ (s : BinaryDecoder) bs b0 b1, s.bytes = some bs →
      fetch bs (s.cursor + 0) = some b0 → 128 ≤ b0 →
      fetch bs (s.cursor + 1) = some b1 → b1 < 128 →
      ∃ v, readSplitVarint64 s Prod.mk = (Except.ok v,
        { s with cursor := s.cursor + 2 })) := by
  refine ⟨?_, ?_, ?_, ?_, ?_, ?_, ?_, ?_, ?_, ?_, ?_, ?_, ?_, ?_, ?_, ?_⟩
  · intro s bs hby h
    simp only [readUint8, hby]
    rw [if_pos h]
    exact ⟨_, rfl⟩
  · intro s bs hby h
    simp only [readUint8, hby]
    rw [if_neg (by omega)]
  · intro s bs hby h
    simp only [readUint16, hby]
    rw [if_pos h]
    exact ⟨_, rfl⟩
  · intro s bs hby h
    simp only [readUint16, hby]
    rw [if_neg (by omega)]
  · intro s bs hby h
    simp only [readUint32, hby]
    rw [if_pos h]
    exact ⟨_, rfl⟩
  · intro s bs hby h
    simp only [readUint32, hby]
    rw [if_neg (by omega)]
  · intro s bs hby h
    simp only [readInt8, hby]
    rw [if_pos h]
    exact ⟨_, rfl⟩
  · intro s bs hby h
    simp only [readInt8, hby]
    rw [if_neg (by omega)]
  · intro s bs hby h
    simp only [readInt16, hby]
    rw [if_pos h]
    exact ⟨_, rfl⟩
  · intro s bs hby h
    simp only [readInt16, hby]
    rw [if_neg (by omega)]
  · intro s bs hby h
    simp only [readInt32, hby]
    rw [if_pos h]
    exact ⟨_, rfl⟩
  · intro s bs hby h
    simp only [readInt32, hby]
    rw [if_neg (by omega)]
  · intro s bs hby
    simp only [readFixedHash64, hby]
    exact ⟨_, rfl⟩
  · intro s bs hby
    simp only [readBool, hby]
    exact ⟨_, rfl⟩
  · intro s bs length hby
    simp only [readString, hby]
    exact ⟨_, _, rfl⟩
  · intro s bs b0 b1 hby h0 hc0 h1 hc1
    simp only [readSplitVarint64, hby, h0, h1]
    rw [if_neg (by simp [jsGE, hc0])]
    rw [if_pos (by simp [jsGE]; omega)]
    rw [if_pos (by simp [jsLT]; omega)]
    exact ⟨_, rfl⟩

/-- C5 witness: the assertion theorem applied to a concrete state — four
in-window bytes make `readUint32` succeed at cursor 0; reading again at
cursor 4 raises the assertion. -/
theorem reads_cursor_assert_witness :
    (∃ v, readUint32 ⟨some [1, 2, 3, 4], 0, 4, 0, false⟩ =
      (Except.ok v,
       { (⟨some [1, 2, 3, 4], 0, 4, 0, false⟩ : BinaryDecoder) with
          cursor := 0 + 4 })) ∧
    readUint32 ⟨some [1, 2, 3, 4], 0, 4, 4, false⟩ =
      (Except.error JsError.assertionError,
       { (⟨some [1, 2, 3, 4], 0, 4, 4, false⟩ : BinaryDecoder) with
          cursor := 4 + 4 }) :=
  ⟨reads_cursor_assert.2.2.2.2.1 ⟨some [1, 2, 3, 4], 0, 4, 0, false⟩
      [1, 2, 3, 4] rfl (by norm_num),
   reads_cursor_assert.2.2.2.2.2.1 ⟨some [1, 2, 3, 4], 0, 4, 4, false⟩
      [1, 2, 3, 4] rfl (by norm_num)⟩

/-- C5 counterexample: the claim says every listed read raises instead
of returning normally when it would leave the cursor past `end`, but
`readFixedHash64` on the reachable state `setBlock(8 bytes, 0, 0)`
(window `[0, 0)`, all 8 bytes inside the array) returns normally with
`cursor = 8 > end = 0`. -/
theorem readFixedHash64_no_assert :
    (readFixedHash64 ⟨some [0, 0, 0, 0, 0, 0, 0, 0], 0, 0, 0, false⟩).1 =
      Except.ok [0, 0, 0, 0, 0, 0, 0, 0] ∧
    (readFixedHash64 ⟨some [0, 0, 0, 0, 0, 0, 0, 0], 0, 0, 0, false⟩).2.cursor = 8 ∧
    (readFixedHash64 ⟨some [0, 0, 0, 0, 0, 0, 0, 0], 0, 0, 0, false⟩).2.endPos = 0 := by
  refine ⟨rfl, rfl, rfl⟩

/-- The unrolled varint32 accumulator equals its base-128 value. -/
theorem varint32_acc (b0 b1 b2 b3 b4 : Nat) :
    (((b0 &&& 0x7f) ||| (((b1 &&& 0x7f) <<< 7) % 2^32)) |||
      (((b2 &&& 0x7f) <<< 14) % 2^32)) ||| (((b3 &&& 0x7f) <<< 21) % 2^32) |||
      (((b4 &&& 0x0f) <<< 28) % 2^32) =
    b0 % 128 + b1 % 128 * 2^7 + b2 % 128 * 2^14 + b3 % 128 * 2^21 +
      b4 % 16 * 2^28 := by
  have h7 : (0x7f : Nat) = 2^7 - 1 := by norm_num
  have h0f : (0x0f : Nat) = 2^4 - 1 := by norm_num
  simp only [h7, h0f, Nat.and_pow_two_sub_one_eq_mod, Nat.shiftLeft_eq]
  have m1 : b1 % 2^7 * 2^7 % 2^32 = 2^7 * (b1 % 2^7) := by
    rw [Nat.mod_eq_of_lt (by omega)]
    ring
  have m2 : b2 % 2^7 * 2^14 % 2^32 = 2^14 * (b2 % 2^7) := by
    rw [Nat.mod_eq_of_lt (by omega)]
    ring
  have m3 : b3 % 2^7 * 2^21 % 2^32 = 2^21 * (b3 % 2^7) := by
    rw [Nat.mod_eq_of_lt (by omega)]
    ring
  have m4 : b4 % 2^4 * 2^28 % 2^32 = 2^28 * (b4 % 2^4) := by
    rw [Nat.mod_eq_of_lt (by omega)]
    ring
  rw [m1, m2, m3, m4]
  rw [Nat.lor_comm (b0 % 2^7) _, or_disjoint _ (by omega)]
  rw [Nat.lor_comm _ (2^14 * (b2 % 2^7)), or_disjoint _ (by omega)]
  rw [Nat.lor_comm _ (2^21 * (b3 % 2^7)), or_disjoint _ (by omega)]
  rw [Nat.lor_comm _ (2^28 * (b4 % 2^4)), or_disjoint _ (by omega)]
  omega

/-- C4 (amended).  When the first five bytes of a varint32 all have the
continuation bit set, `readUnsignedVarint32` consumes up to five more
bytes, stopping immediately after the first extension byte whose high
bit is clear and returning the low 32 bits accumulated from the first
five bytes (with the cursor advanced by exactly the bytes read, subject
to the `cursor ≤ end` assertion); only when all five extension bytes
have the high bit set does the read fail as malformed. -/
theorem readUnsignedVarint32_overflow
    (s : BinaryDecoder) (bs : List Nat) (b0 b1 b2 b3 b4 : Nat)
    (hby : s.bytes = some bs)
    (h0 : fetch bs (s.cursor + 0) = some b0) (hc0 : 128 ≤ b0)
    (h1 : fetch bs (s.cursor + 1) = some b1) (hc1 : 128 ≤ b1)
    (h2 : fetch bs (s.cursor + 2) = some b2) (hc2 : 128 ≤ b2)
    (h3 : fetch bs (s.cursor + 3) = some b3) (hc3 : 128 ≤ b3)
    (h4 : fetch bs (s.cursor + 4) = some b4) (hc4 : 128 ≤ b4) :
    ((∀ k : Nat, k < 5 → jsGE (fetch bs (s.cursor + 5 + (k : Int))) 128 = true) →
      readUnsignedVarint32 s = (Except.error JsError.assertionError,
        { s with cursor := s.cursor + 10 })) ∧
    (∀ k : Nat, k < 5 →
      (∀ j : Nat, j < k → jsGE (fetch bs (s.cursor + 5 + (j : Int))) 128 = true) →
      jsGE (fetch bs (s.cursor + 5 + (k : Int))) 128 = false →
      s.cursor + 6 + (k : Int) ≤ s.endPos →
      readUnsignedVarint32 s = (Except.ok
        (b0 % 128 + b1 % 128 * 2^7 + b2 % 128 * 2^14 + b3 % 128 * 2^21 +
          b4 % 16 * 2^28),
        { s with cursor := s.cursor + 6 + (k : Int) })) := by
  have hx := varint32_acc b0 b1 b2 b3 b4
  have e6 : s.cursor + 5 + ((1 : Nat) : Int) = s.cursor + 6 := by push_cast; ring
  have e7 : s.cursor + 5 + ((2 : Nat) : Int) = s.cursor + 7 := by push_cast; ring
  have e8 : s.cursor + 5 + ((3 : Nat) : Int) = s.cursor + 8 := by push_cast; ring
  have e9 : s.cursor + 5 + ((4 : Nat) : Int) = s.cursor + 9 := by push_cast; ring
  have e5 : s.cursor + 5 + ((0 : Nat) : Int) = s.cursor + 5 := by push_cast; ring
  constructor
  · intro hall
    have g0 := hall 0 (by omega)
    have g1 := hall 1 (by omega)
    have g2 := hall 2 (by omega)
    have g3 := hall 3 (by omega)
    have g4 := hall 4 (by omega)
    rw [e5] at g0
    rw [e6] at g1
    rw [e7] at g2
    rw [e8] at g3
    rw [e9] at g4
    simp only [readUnsignedVarint32, hby, h0, h1, h2, h3, h4]
    rw [if_neg (by simp [jsLT]; omega), if_neg (by simp [jsLT]; omega),
      if_neg (by simp [jsLT]; omega), if_neg (by simp [jsLT]; omega),
      if_neg (by simp [jsLT]; omega), if_neg (by simp [g0]),
      if_neg (by simp [g1]), if_neg (by simp [g2]), if_neg (by simp [g3]),
      if_neg (by simp [g4])]
  · intro k hk hbefore hstop hend
    simp only [readUnsignedVarint32, hby, h0, h1, h2, h3, h4]
    rw [if_neg (by simp [jsLT]; omega), if_neg (by simp [jsLT]; omega),
      if_neg (by simp [jsLT]; omega), if_neg (by simp [jsLT]; omega),
      if_neg (by simp [jsLT]; omega)]
    interval_cases k
    · rw [e5] at hstop
      rw [if_pos (by simp [hstop])]
      rw [if_pos (by show s.cursor + 6 ≤ s.endPos
                     push_cast at hend
                     omega)]
      rw [show s.cursor + 6 + ((0 : Nat) : Int) = s.cursor + 6 by push_cast; ring]
      simp only [bits, Option.getD_some]
      rw [hx]
    · have g0 := hbefore 0 (by omega)
      rw [e5] at g0
      rw [e6] at hstop
      rw [if_neg (by simp [g0]), if_pos (by simp [hstop])]
      rw [if_pos (by show s.cursor + 7 ≤ s.endPos
                     push_cast at hend
                     omega)]
      rw [show s.cursor + 6 + ((1 : Nat) : Int) = s.cursor + 7 by push_cast; ring]
      simp only [bits, Option.getD_some]
      rw [hx]
    · have g0 := hbefore 0 (by omega)
      have g1 := hbefore 1 (by omega)
      rw [e5] at g0
      rw [e6] at g1
      rw [e7] at hstop
      rw [if_neg (by simp [g0]), if_neg (by simp [g1]),
        if_pos (by simp [hstop])]
      rw [if_pos (by show s.cursor + 8 ≤ s.endPos
                     push_cast at hend
                     omega)]
      rw [show s.cursor + 6 + ((2 : Nat) : Int) = s.cursor + 8 by push_cast; ring]
      simp only [bits, Option.getD_some]
      rw [hx]
    · have g0 := hbefore 0 (by omega)
      have g1 := hbefore 1 (by omega)
      have g2 := hbefore 2 (by omega)
      rw [e5] at g0
      rw [e6] at g1
      rw [e7] at g2
      rw [e8] at hstop
      rw [if_neg (by simp [g0]), if_neg (by simp [g1]),
        if_neg (by simp [g2]), if_pos (by simp [hstop])]
      rw [if_pos (by show s.cursor + 9 ≤ s.endPos
                     push_cast at hend
                     omega)]
      rw [show s.cursor + 6 + ((3 : Nat) : Int) = s.cursor + 9 by push_cast; ring]
      simp only [bits, Option.getD_some]
      rw [hx]
    · have g0 := hbefore 0 (by omega)
      have g1 := hbefore 1 (by omega)
      have g2 := hbefore 2 (by omega)
      have g3 := hbefore 3 (by omega)
      rw [e5] at g0
      rw [e6] at g1
      rw [e7] at g2
      rw [e8] at g3
      rw [e9] at hstop
      rw [if_neg (by simp [g0]), if_neg (by simp [g1]),
        if_neg (by simp [g2]), if_neg (by simp [g3]),
        if_pos (by simp [hstop])]
      rw [if_pos (by show s.cursor + 10 ≤ s.endPos
                     push_cast at hend
                     omega)]
      rw [show s.cursor + 6 + ((4 : Nat) : Int) = s.cursor + 10 by push_cast; ring]
      simp only [bits, Option.getD_some]
      rw [hx]

/-- C4 witness: the amended theorem applied to the concrete stream
`[0x80 ×5, 0x00]`: the first extension byte has its high bit clear, so
the read succeeds with value 0 and cursor 6. -/
theorem readUnsignedVarint32_overflow_witness :
    readUnsignedVarint32 ⟨some [0x80, 0x80, 0x80, 0x80, 0x80, 0x00],
        0, 6, 0, false⟩ =
      (Except.ok (0x80 % 128 + 0x80 % 128 * 2^7 + 0x80 % 128 * 2^14 +
        0x80 % 128 * 2^21 + 0x80 % 16 * 2^28),
       { (⟨some [0x80, 0x80, 0x80, 0x80, 0x80, 0x00], 0, 6, 0, false⟩ :
          BinaryDecoder) with cursor := 0 + 6 + ((0 : Nat) : Int) }) :=
  (readUnsignedVarint32_overflow
    ⟨some [0x80, 0x80, 0x80, 0x80, 0x80, 0x00], 0, 6, 0, false⟩
    [0x80, 0x80, 0x80, 0x80, 0x80, 0x00] 0x80 0x80 0x80 0x80 0x80
    rfl rfl (by norm_num) rfl (by norm_num)
    rfl (by norm_num) rfl (by norm_num)
    rfl (by norm_num)).2 0 (by norm_num)
    (by intro j hj; omega)
    (by decide) (by norm_num)

/-- C4 counterexample: the claim says that an extension byte without the
high bit makes the read fail as malformed, but on the stream
`[0x80 ×5, 0x00]` (sixth byte `0x00`, high bit clear) the read returns
normally with value 0 and the cursor advanced to 6. -/
theorem readUnsignedVarint32_extension_succeeds :
    (readUnsignedVarint32 ⟨some [0x80, 0x80, 0x80, 0x80, 0x80, 0x00],
        0, 6, 0, false⟩).1 = Except.ok 0 ∧
    (readUnsignedVarint32 ⟨some [0x80, 0x80, 0x80, 0x80, 0x80, 0x00],
        0, 6, 0, false⟩).2.cursor = 6 := by
  refine ⟨rfl, rfl⟩

end NNA
